import Mathlib

/-!
Shallow embedding of the `cryptod` streaming authenticated-encryption codec
(github.com/wiggin77/cryptod) and proofs about its wire format, encryption
and decryption loops, chunk-header serialization and the stream header writer.

Modelling conventions:
* Go byte slices and strings are modelled as `List Nat`; bytes written by the
  framing layer are always < 256, mirroring Go's `byte`.
* Byte sources (`io.Reader`) are the remaining byte list; `bufio` reads of `k`
  bytes deliver `min k remaining` bytes, error exactly when nothing remains,
  and the destination buffer keeps its zero fill for bytes not delivered,
  which mirrors `bufio.Reader.Read` into a `make([]byte, k)` buffer over an
  exhausted `bytes.Reader`.
* AES-256-GCM and SHA-512/256 come from the Go standard library (external to
  this repository).  They are modelled as an ideal deterministic AEAD: `gcmSeal`
  appends a 16-byte tag region holding an injective encoding of
  (key, nonce, plaintext, additional data), and `gcmOpen` succeeds exactly on
  byte strings produced by `gcmSeal` for the same key, nonce and AAD.  The
  SHA-512/256 key derivation is modelled as the identity on the key's bytes,
  mirroring its collision resistance.  The nonce size (12) and tag overhead
  (16) are those of Go's `cipher.NewGCM` over AES-256.
* `uint32` arithmetic is `Nat` arithmetic with explicit `% 2^32`.
* The process CSPRNG (`crypto/rand`) is a parameter: a function giving the
  fresh random bytes drawn for each chunk counter value.
-/

namespace Cryptod

/-- maximum plaintext chunk size, `ChunkSize = 1024 * 1000` from crypto.go. -/
def ChunkSize : Nat := 1024 * 1000

/-- GCM authentication tag length in bytes (`gcm.Overhead()` for AES-GCM). -/
def gcmOverhead : Nat := 16

/-- GCM nonce length in bytes (`gcm.NonceSize()` for the standard GCM). -/
def gcmNonceSize : Nat := 12

/-- `binary.MaxVarintLen32 = 5`. -/
def maxVarintLen32 : Nat := 5

/-- chunk type `chunkTypeData = 0x01` from chunk.go. -/
def chunkTypeData : Nat := 0x01

/-- chunk type `chunkTypeExtra = 0xF0` from chunk.go. -/
def chunkTypeExtra : Nat := 0xF0

/-- chunk type `chunkTypeTomb = 0xF1` from chunk.go. -/
def chunkTypeTomb : Nat := 0xF1

/-- scheme id `schemeAES256GCM = 0x01` from chunk.go. -/
def schemeAES256GCM : Nat := 0x01

/-- `checkChunkType` from chunk.go: the valid chunk types. -/
def checkChunkType (ct : Nat) : Bool :=
  ct == chunkTypeData || ct == chunkTypeExtra || ct == chunkTypeTomb

/-- `checkSchemeType` from chunk.go: the valid scheme ids. -/
def checkSchemeType (st : Nat) : Bool :=
  st == schemeAES256GCM

/-- minimal base-128 varint encoding, as produced by `binary.PutUvarint`.
The fuel argument bounds the recursion; 10 bytes suffice for every `uint64`
(`binary.MaxVarintLen64`), so for all values a Go `uint64` can hold this
matches `PutUvarint` exactly. -/
def uvarintEncAux : Nat → Nat → List Nat
  | 0, x => [x]
  | fuel + 1, x => if x < 128 then [x] else (x % 128 + 128) :: uvarintEncAux fuel (x / 128)

/-- minimal varint encoding of `x` (exact for `x < 2^64`). -/
def uvarintEnc (x : Nat) : List Nat := uvarintEncAux 9 x

/-- `binary.ReadUvarint` reading from a byte list: little-endian base-128
groups, continuation bit `0x80`; fails (with the reader's EOF) when the
list ends while a continuation bit is set. -/
def readUvarintFrom : List Nat → Option Nat
  | [] => none
  | b :: bs =>
    if b < 128 then some b
    else (readUvarintFrom bs).map fun v => b % 128 + v * 128

/-- a `binary.MaxVarintLen32`-byte buffer holding `PutUvarint x`: the minimal
encoding followed by the buffer's zero fill (exact for `x < 2^35`). -/
def varint5 (x : Nat) : List Nat :=
  (uvarintEnc x ++ List.replicate maxVarintLen32 0).take maxVarintLen32

/-- pad (or cut) a byte list to exactly `k` bytes with zero fill, the effect
of reading into a fresh `make([]byte, k)` buffer. -/
def padTo (k : Nat) (l : List Nat) : List Nat :=
  (l ++ List.replicate k 0).take k

/-- injective encoding of a byte list into a natural number (via `Nat.pair`),
used by the ideal-AEAD tag. -/
def encL (l : List Nat) : Nat :=
  l.foldr (fun a acc => Nat.pair a acc + 1) 0

/-- the ideal AEAD's authentication-tag value for key, nonce, plaintext and
additional authenticated data: an injective function of the four inputs,
mirroring GCM's tag binding all four. -/
def tagOf (key nonce p aad : List Nat) : Nat :=
  Nat.pair (encL key) (Nat.pair (encL nonce) (Nat.pair (encL p) (encL aad)))

/-- `gcm.Seal(dst[:0], nonce, p, aad)` in the ideal-AEAD model: ciphertext of
length `p.length + gcmOverhead` whose tag region determines key, nonce,
plaintext and AAD. -/
def gcmSeal (key nonce p aad : List Nat) : List Nat :=
  p ++ List.replicate gcmOverhead (tagOf key nonce p aad)

/-- `gcm.Open(dst[:0], nonce, c, aad)` in the ideal-AEAD model: succeeds with
the plaintext exactly when `c` was sealed under the same key, nonce and AAD;
any other byte string fails authentication. -/
def gcmOpen (key nonce c aad : List Nat) : Option (List Nat) :=
  if c.length < gcmOverhead then none
  else
    let p := c.take (c.length - gcmOverhead)
    if c.drop (c.length - gcmOverhead) = List.replicate gcmOverhead (tagOf key nonce p aad)
    then some p else none

/-- error enumeration covering every error site of crypto.go, chunk.go and
header.go reachable in the model; constructors are named after the Go error
messages / error values they stand for. -/
inductive CErr where
  /-- an `io.EOF` returned by a read on an exhausted source -/
  | eof
  /-- an `io.ErrUnexpectedEOF` from `io.ReadFull` delivering a short count -/
  | unexpectedEof
  /-- "invalid chunk tag" -/
  | invalidChunkTag
  /-- "invalid chunk type: %d" -/
  | invalidChunkType
  /-- "invalid scheme type: %d" -/
  | invalidSchemeType
  /-- error from `binary.ReadUvarint` (its byte reader ran out) -/
  | varintEof
  /-- "invalid chunk size: %d, max=%d" -/
  | invalidChunkSize
  /-- the `cipher.AEAD.Open` authentication error -/
  | authFailed
  /-- "unsupported scheme: %d" from `getGCM` -/
  | unsupportedScheme
  /-- "invalid chunk type: %d" from the `Decrypt` routing switch -/
  | invalidRoutedChunkType
  /-- "extra data too big ..." from `Encrypt` -/
  | extraTooBig
  /-- an underlying writer error (the test helper's "writer full") -/
  | writerFull
deriving DecidableEq, Repr

deriving instance DecidableEq for Except

/-- `chunkHeader` from chunk.go.  Field defaults are Go zero values; a header
returned together with an error carries exactly the fields assigned before
the error, as in the Go code. -/
structure chunkHeader where
  ct : Nat := 0
  st : Nat := 0
  nonce : List Nat := []
  dataSize : Nat := 0
deriving DecidableEq, Repr

/-- the serialized bytes of a chunk header: 2-byte tag "ct", chunk type,
scheme type, nonce length byte, nonce, 5-byte varint buffer of the size. -/
def chunkHeaderBytes (ct st : Nat) (nonce : List Nat) (dataSize : Nat) : List Nat :=
  99 :: 116 :: ct :: st :: nonce.length % 256 :: (nonce ++ varint5 dataSize)

/-- `writeChunkHeader` from chunk.go: validates the chunk type and scheme
type before emitting any bytes, then emits the serialized header. -/
def writeChunkHeader (ch : chunkHeader) : Except CErr (List Nat) :=
  if ¬ checkChunkType ch.ct then .error .invalidChunkType
  else if ¬ checkSchemeType ch.st then .error .invalidSchemeType
  else .ok (chunkHeaderBytes ch.ct ch.st ch.nonce ch.dataSize)

/-- `readChunkHeader` from chunk.go: parses a chunk header from the stream,
returning the header as filled in so far, an optional error, and the rest of
the stream.  Mirrors the Go reads: a read into a `k`-byte buffer errors only
on an empty source, and delivers available bytes over the buffer's zero fill
otherwise; `h.dataSize = uint32(val)` is `% 2^32`; the size bound compares
against `uint32(maxChunkSize)`. -/
def readChunkHeader (s : List Nat) (maxChunkSize : Nat) : chunkHeader × Option CErr × List Nat :=
  match s with
  | [] => ({}, some .eof, [])
  | [b0] =>
    -- one byte available: the tag buffer keeps a zero second byte and the
    -- comparison against "ct" fails
    if [b0, 0] ≠ [99, 116] then ({}, some .invalidChunkTag, []) else ({}, some .eof, [])
  | b0 :: b1 :: s2 =>
    if [b0, b1] ≠ [99, 116] then ({}, some .invalidChunkTag, s2)
    else match s2 with
    | [] => ({}, some .eof, [])
    | ct :: s3 =>
      if ¬ checkChunkType ct then ({ ct := ct }, some .invalidChunkType, s3)
      else match s3 with
      | [] => ({ ct := ct }, some .eof, [])
      | st :: s4 =>
        if ¬ checkSchemeType st then ({ ct := ct, st := st }, some .invalidSchemeType, s4)
        else match s4 with
        | [] => ({ ct := ct, st := st }, some .eof, [])
        | nsize :: s5 =>
          if nsize ≠ 0 ∧ s5 = [] then
            ({ ct := ct, st := st, nonce := List.replicate nsize 0 }, some .eof, [])
          else
            let nonce := padTo nsize (s5.take nsize)
            let s6 := s5.drop nsize
            if s6 = [] then ({ ct := ct, st := st, nonce := nonce }, some .eof, [])
            else
              let field := padTo maxVarintLen32 (s6.take maxVarintLen32)
              let s7 := s6.drop maxVarintLen32
              match readUvarintFrom field with
              | none => ({ ct := ct, st := st, nonce := nonce }, some .varintEof, s7)
              | some val =>
                let ds := val % 2 ^ 32
                if ds > maxChunkSize % 2 ^ 32 then
                  ({ ct := ct, st := st, nonce := nonce, dataSize := ds },
                    some .invalidChunkSize, s7)
                else
                  ({ ct := ct, st := st, nonce := nonce, dataSize := ds }, none, s7)

/-- `sha512.Sum512_256` key derivation followed by `aes.NewCipher` and
`cipher.NewGCM`, i.e. `getAES256GCM` from crypto.go.  The Go standard-library
hash and cipher are external to the repository; in the ideal-AEAD model the
derived AEAD key is the key's own bytes (the derivation is deterministic and,
by collision resistance, injective). -/
def getAES256GCM (skey : List Nat) : List Nat := skey

/-- `getGCM` from crypto.go: resolves a scheme id to an AEAD, failing with
the unsupported-scheme error on anything but `schemeAES256GCM`. -/
def getGCM (skey : List Nat) (st : Nat) : Except CErr (List Nat) :=
  if st = schemeAES256GCM then .ok (getAES256GCM skey) else .error .unsupportedScheme

/-- `maxChunkSize := ChunkSize + gcm.Overhead()` in `Decrypt`. -/
def maxChunkSizeD : Nat := ChunkSize + gcmOverhead

/-- `maxChunkSizeSanity := maxChunkSize * 2` in `Decrypt`. -/
def maxChunkSizeSanity : Nat := maxChunkSizeD * 2

/-- one pass of the `Decrypt` loop from crypto.go, fuel-indexed so that the
recursion is structural (each iteration consumes at least one byte, so
`s.length + 1` fuel is always enough; `decryptLoop` instantiates it so and
the fuel is provably irrelevant beyond that bound).

State: `skey` is the caller's key, `gcmKey`/`st` the resolved cipher and
scheme of `readCtx`, `s` the remaining stream, `out` the bytes written to the
plaintext sink so far, `extra` the accumulated extra metadata.  Returns the
optional terminal error together with the final sink contents and extra data,
mirroring Go's `(extra, error)` return plus the sink. -/
def decryptLoopF (skey : List Nat) :
    Nat → List Nat → Nat → List Nat → List Nat → List Nat →
    Option CErr × List Nat × List Nat
  | 0, _, _, _, out, extra => (some .eof, out, extra)
  | fuel + 1, gcmKey, st, s, out, extra =>
    match readChunkHeader s maxChunkSizeSanity with
    | (ch, err?, s1) =>
      if err?.isSome ∧ ch.ct ≠ chunkTypeTomb then (err?, out, extra)
      else if ch.ct = chunkTypeTomb then (none, out, extra)
      else
        -- check if scheme changed and is supported
        match (if ch.st ≠ st then getGCM skey ch.st else .ok gcmKey) with
        | .error e => (some e, out, extra)
        | .ok gcmKey' =>
          -- readEncryptedChunk: read `ch.dataSize` ciphertext bytes and open
          -- them (nil AAD); a zero-size chunk skips the read and the Open
          let r : Except CErr (List Nat × List Nat) :=
            if ch.dataSize = 0 then .ok ([], s1)
            else if s1.length < ch.dataSize then
              .error (if s1.isEmpty then .eof else .unexpectedEof)
            else match gcmOpen gcmKey' ch.nonce (s1.take ch.dataSize) [] with
              | none => .error .authFailed
              | some p => .ok (p, s1.drop ch.dataSize)
          match r with
          | .error e => (some e, out, extra)
          | .ok (p, s2) =>
            -- the `switch ch.ct` routing: extra chunks accumulate into the
            -- returned metadata, data chunks go to the plaintext sink
            if ch.ct = chunkTypeExtra then decryptLoopF skey fuel gcmKey' ch.st s2 out (extra ++ p)
            else if ch.ct = chunkTypeData then decryptLoopF skey fuel gcmKey' ch.st s2 (out ++ p) extra
            else (some .invalidRoutedChunkType, out, extra)

/-- the `Decrypt` loop at its canonical fuel: every iteration consumes at
least one byte of `s`, so `s.length + 1` iterations always reach the
terminator, an error, or stream end. -/
def decryptLoop (skey gcmKey : List Nat) (st : Nat) (s out extra : List Nat) :
    Option CErr × List Nat × List Nat :=
  decryptLoopF skey (s.length + 1) gcmKey st s out extra

/-- `Decrypt` from crypto.go on a byte stream: resolves the AES-256-GCM
cipher for the key and runs the chunk loop with an empty sink and empty
extra-metadata accumulator.  (`getGCM` with `schemeAES256GCM` cannot fail.) -/
def Decrypt (s skey : List Nat) : Option CErr × List Nat × List Nat :=
  match getGCM skey schemeAES256GCM with
  | .error e => (some e, [], [])
  | .ok gcmKey => decryptLoop skey gcmKey schemeAES256GCM s [] []

/-- the nonce-buffer contents after one iteration of the `Encrypt` loop:
`io.ReadFull(rand.Reader, nonce[binary.MaxVarintLen32:])` randomizes bytes 5
through 11 of the reused buffer, then `binary.PutUvarint(nonce, uint64(ctr))`
overwrites the minimal varint encoding of the counter at the front, keeping
whatever the buffer held between the varint's end and byte 5. -/
def nonceOf (ctr : Nat) (nonceBuf : List Nat) (rand : Nat → List Nat) : List Nat :=
  uvarintEnc ctr ++
    (nonceBuf.take maxVarintLen32 ++
      padTo (gcmNonceSize - maxVarintLen32) (rand ctr)).drop (uvarintEnc ctr).length

/-- one iteration of the `Encrypt` for-loop from crypto.go, fuel-indexed so
the recursion is structural (each iteration consumes the pending extra data
or at least one input byte, so `extra.length + input.length + 1` fuel always
reaches the `io.EOF` break).  Returns the bytes written to the sink from this
iteration on.  `ctr` is the `uint32` chunk counter, `nonceBuf` the reused
12-byte nonce buffer; `rand ctr` gives the fresh CSPRNG bytes drawn while the
counter has that value. -/
def encryptLoopF (key : List Nat) (rand : Nat → List Nat) :
    Nat → Nat → List Nat → List Nat → List Nat → Except CErr (List Nat)
  | 0, _, _, _, _ => .ok []
  | fuel + 1, ctr, nonceBuf, extra, input =>
    -- read the next plaintext chunk: pending extra data first (only once),
    -- then `io.ReadFull(br, pbuf)` on the input
    let n := if extra.length > 0 then min extra.length ChunkSize else min input.length ChunkSize
    let ct := if extra.length > 0 then chunkTypeExtra else chunkTypeData
    let p := if extra.length > 0 then extra.take ChunkSize else input.take ChunkSize
    let extra' : List Nat := if extra.length > 0 then [] else extra
    let input' := if extra.length > 0 then input else input.drop ChunkSize
    if n = 0 then .ok [] -- io.ReadFull returned (0, io.EOF): the loop breaks
    else
      -- randomize nonce[MaxVarintLen32:], then PutUvarint(nonce, ctr)
      let nonce := nonceOf ctr nonceBuf rand
      let ctr' := (ctr + 1) % 2 ^ 32
      -- encrypt and authenticate (nil AAD)
      let c := gcmSeal key nonce p []
      if c.length > 0 then
        match writeChunkHeader
            { ct := ct, st := schemeAES256GCM, nonce := nonce, dataSize := c.length % 2 ^ 32 } with
        | .error e => .error e
        | .ok hb => (encryptLoopF key rand fuel ctr' nonce extra' input').map fun rest => hb ++ c ++ rest
      else
        encryptLoopF key rand fuel ctr' nonce extra' input'

/-- the serialized terminator ("tomb") chunk: zero data size, no payload. -/
def tombChunkBytes (nonce : List Nat) : List Nat :=
  chunkHeaderBytes chunkTypeTomb schemeAES256GCM nonce 0

/-- `Encrypt` from crypto.go on a byte stream: rejects oversized extra data,
resolves the AES-256-GCM cipher, runs the chunk loop from counter 1 with a
zeroed nonce buffer, and appends the tomb chunk whose nonce is drawn fresh
from the CSPRNG (`randTomb`). -/
def Encrypt (input key extra : List Nat) (rand : Nat → List Nat) (randTomb : List Nat) :
    Except CErr (List Nat) :=
  if extra.length > ChunkSize then .error .extraTooBig
  else
    match getGCM key schemeAES256GCM with
    | .error e => .error e
    | .ok gcmKey =>
      match encryptLoopF gcmKey rand (extra.length + input.length + 1) 1
          (List.replicate gcmNonceSize 0) extra input with
      | .error e => .error e
      | .ok body =>
        (writeChunkHeader
            { ct := chunkTypeTomb, st := schemeAES256GCM,
              nonce := padTo gcmNonceSize randTomb, dataSize := 0 }).map
          fun tb => body ++ tb

/-- the plaintext pieces the `Encrypt` loop reads from the input: maximal
`ChunkSize` slices, tagged as data chunks (fuel-indexed for structural
recursion, `l.length + 1` fuel always suffices). -/
def dataPiecesF : Nat → List Nat → List (Nat × List Nat)
  | 0, _ => []
  | fuel + 1, l =>
    if l = [] then [] else (chunkTypeData, l.take ChunkSize) :: dataPiecesF fuel (l.drop ChunkSize)

/-- the data pieces of an input stream. -/
def dataPieces (l : List Nat) : List (Nat × List Nat) := dataPiecesF (l.length + 1) l

/-- all (chunk type, plaintext) pieces of one `Encrypt` run: the extra
metadata first (when present), then the data pieces. -/
def pieces (extra input : List Nat) : List (Nat × List Nat) :=
  (if extra = [] then [] else [(chunkTypeExtra, extra.take ChunkSize)]) ++ dataPieces input

/-- the plaintext a decryption run writes to its sink for a sequence of
pieces: the data pieces, in order. -/
def piecesOut (ps : List (Nat × List Nat)) : List Nat :=
  (ps.map fun pr => if pr.1 = chunkTypeData then pr.2 else []).flatten

/-- the extra metadata a decryption run accumulates for a sequence of
pieces: the extra-metadata pieces, in order. -/
def piecesExtra (ps : List (Nat × List Nat)) : List Nat :=
  (ps.map fun pr => if pr.1 = chunkTypeExtra then pr.2 else []).flatten

/-- the byte stream of a sequence of sealed chunks, one nonce per piece:
each piece becomes its chunk header followed by its ciphertext.  `Encrypt`'s
loop output is of this shape (see the characterization lemmas). -/
def chunkStreamN (key : List Nat) : List (List Nat) → List (Nat × List Nat) → List Nat
  | nonce :: ns, (ct, p) :: ps =>
    chunkHeaderBytes ct schemeAES256GCM nonce ((p.length + gcmOverhead) % 2 ^ 32) ++
      gcmSeal key nonce p [] ++ chunkStreamN key ns ps
  | _, _ => []

/-- `chunkStreamN` with ciphertext byte `i` of chunk `j` replaced by `v`:
the single-byte-tamper transformation on a valid stream (chunk headers and
all other bytes untouched). -/
def chunkStreamNT (key : List Nat) (i v : Nat) :
    Nat → List (List Nat) → List (Nat × List Nat) → List Nat
  | 0, nonce :: ns, (ct, p) :: ps =>
    chunkHeaderBytes ct schemeAES256GCM nonce ((p.length + gcmOverhead) % 2 ^ 32) ++
      (gcmSeal key nonce p []).set i v ++ chunkStreamN key ns ps
  | j + 1, nonce :: ns, (ct, p) :: ps =>
    chunkHeaderBytes ct schemeAES256GCM nonce ((p.length + gcmOverhead) % 2 ^ 32) ++
      gcmSeal key nonce p [] ++ chunkStreamNT key i v j ns ps
  | _, _, _ => []

/-- the nonce `Encrypt` builds for the chunk sealed at counter `ctr + j`
(when the counter has not wrapped): the 5-byte varint region holding the
counter, then the 7 fresh random bytes. -/
def nonceAt (rand : Nat → List Nat) (ctr j : Nat) : List Nat :=
  varint5 (ctr + j) ++ padTo (gcmNonceSize - maxVarintLen32) (rand (ctr + j))

/-- the nonces of `m` consecutive chunks starting at counter `ctr`. -/
def nonceList (rand : Nat → List Nat) (ctr m : Nat) : List (List Nat) :=
  (List.range m).map (nonceAt rand ctr)

/-- a byte sink with a capacity bound, mirroring the repository's
`test.LimitedWriter`: a write already at the limit fails; a write crossing
the limit delivers the bytes that fit and fails. -/
structure LWriter where
  written : List Nat := []
  limit : Nat := 0
deriving DecidableEq, Repr

/-- `LimitedWriter.Write`: fails with the writer-full error once the limit
is reached or crossed, delivering any bytes that still fit. -/
def lwWrite (w : LWriter) (p : List Nat) : LWriter × Option CErr :=
  if w.written.length ≥ w.limit then (w, some .writerFull)
  else if w.limit - w.written.length < p.length then
    ({ w with written := w.written ++ p.take (w.limit - w.written.length) }, some .writerFull)
  else ({ w with written := w.written ++ p }, none)

/-- the stream header's declared-size byte from header.go:
`headerSize = magicSize + schemeSize + verMajSize + verMinSize = 13`. -/
def headerSizeByte : Nat := 13

/-- the stream header magic "sc" from header.go. -/
def magicBytes : List Nat := [115, 99]

/-- the stream header scheme name "aes256gcm" from header.go. -/
def schemeNameBytes : List Nat := [97, 101, 115, 50, 53, 54, 103, 99, 109]

/-- the field list `(h *header) write` emits, with the values `init` sets:
declared size, magic, scheme name, major version 1, minor version 0. -/
def headerFields : List (List Nat) :=
  [[headerSizeByte], magicBytes, schemeNameBytes, [1], [0]]

/-- the serialized stream header (14 bytes). -/
def streamHeaderBytes : List Nat := headerFields.flatten

/-- the field loop of `(h *header) write` from header.go: writes each field
in turn; when a write on the sink fails the function returns `nil` (header.go
line 71 is `return nil`), so the sink error is dropped and the caller sees
success. -/
def headerWriteLoop (w : LWriter) : List (List Nat) → LWriter × Option CErr
  | [] => (w, none)
  | f :: fs =>
    match lwWrite w f with
    | (w', none) => headerWriteLoop w' fs
    | (w', some _) => (w', none)

/-- `(h *header) write` on an initialized header. -/
def headerWrite (w : LWriter) : LWriter × Option CErr :=
  headerWriteLoop w headerFields

/-- a concrete two-chunk encryption: plaintext byte `0x41`, key byte `0x6b`,
extra metadata byte `0x42`, CSPRNG returning zeros.  The stream is one
extra-metadata chunk (bytes 0–38), one data chunk (bytes 39–77) and the
terminator (bytes 78–99). -/
def dupEncStream : List Nat :=
  (Encrypt [65] [107] [66] (fun _ => []) []).toOption.getD []

/-- `dupEncStream` with its data chunk (header plus ciphertext, bytes 39–77)
duplicated in place, header and terminator intact. -/
def dupTamperedStream : List Nat :=
  dupEncStream.take 78 ++ (dupEncStream.drop 39).take 39 ++ dupEncStream.drop 78

/-! ### Varint encoding lemmas -/

theorem uvarintEncAux_dec (fuel : Nat) : ∀ (x : Nat), x < 128 ^ (fuel + 1) →
    ∀ junk, readUvarintFrom (uvarintEncAux fuel x ++ junk) = some x := by
  induction fuel with
  | zero =>
    intro x hx junk
    simp only [uvarintEncAux, List.cons_append, readUvarintFrom]
    rw [if_pos (by simpa using hx)]
  | succ fuel ih =>
    intro x hx junk
    simp only [uvarintEncAux]
    by_cases h : x < 128
    · simp [h, readUvarintFrom]
    · rw [if_neg h]
      simp only [List.cons_append, readUvarintFrom, List.append_eq]
      rw [if_neg (by omega)]
      rw [ih (x / 128) (by
        have : 128 ^ (fuel + 1 + 1) = 128 ^ (fuel + 1) * 128 := by ring
        omega) junk]
      simp only [Option.map_some']
      congr 1
      omega

theorem uvarintEnc_dec (x : Nat) (hx : x < 2 ^ 64) (junk : List Nat) :
    readUvarintFrom (uvarintEnc x ++ junk) = some x :=
  uvarintEncAux_dec 9 x (lt_of_lt_of_le hx (by norm_num)) junk

theorem uvarintEncAux_length_le (fuel : Nat) : ∀ x : Nat,
    (uvarintEncAux fuel x).length ≤ fuel + 1 := by
  induction fuel with
  | zero => intro x; simp [uvarintEncAux]
  | succ fuel ih =>
    intro x
    simp only [uvarintEncAux]
    split
    · simp
    · simpa [Nat.succ_le_succ_iff] using ih (x / 128)

theorem uvarintEncAux_length_lt (fuel : Nat) : ∀ (x k : Nat), k ≤ fuel + 1 →
    x < 128 ^ k → 0 < k → (uvarintEncAux fuel x).length ≤ k := by
  induction fuel with
  | zero =>
    intro x k _ _ hk0
    simp only [uvarintEncAux, List.length_singleton]
    omega
  | succ fuel ih =>
    intro x k hk hx hk0
    simp only [uvarintEncAux]
    by_cases h : x < 128
    · rw [if_pos h]
      simp only [List.length_singleton]
      omega
    · rw [if_neg h]
      have hk1 : 1 < k := by
        by_contra hcon
        have hk1' : k = 1 := by omega
        rw [hk1'] at hx
        simp at hx
        omega
      have hdiv : x / 128 < 128 ^ (k - 1) := by
        have hself : 128 ^ k = 128 ^ (k - 1) * 128 := by
          conv_lhs => rw [show k = (k - 1) + 1 by omega]
          ring
        omega
      have := ih (x / 128) (k - 1) (by omega) hdiv (by omega)
      simp only [List.length_cons]
      omega

theorem uvarintEnc_length_le_five (x : Nat) (hx : x < 2 ^ 32) :
    (uvarintEnc x).length ≤ 5 := by
  have h128 : x < 128 ^ 5 := by
    have : (2 : Nat) ^ 32 ≤ 128 ^ 5 := by norm_num
    omega
  exact uvarintEncAux_length_lt 9 x 5 (by omega) h128 (by omega)

theorem uvarintEnc_length_le_ten (x : Nat) : (uvarintEnc x).length ≤ 10 :=
  uvarintEncAux_length_le 9 x

theorem varint5_eq (x : Nat) (hx : x < 2 ^ 32) :
    varint5 x = uvarintEnc x ++ List.replicate (5 - (uvarintEnc x).length) 0 := by
  have h5 := uvarintEnc_length_le_five x hx
  simp only [varint5, maxVarintLen32]
  rw [List.take_append_eq_append_take, List.take_of_length_le (by omega),
    List.take_replicate]
  congr 2
  omega

theorem varint5_length (x : Nat) (hx : x < 2 ^ 32) : (varint5 x).length = 5 := by
  have h5 := uvarintEnc_length_le_five x hx
  rw [varint5_eq x hx]
  simp
  omega

theorem readUvarintFrom_varint5 (x : Nat) (hx : x < 2 ^ 32) (junk : List Nat) :
    readUvarintFrom (varint5 x ++ junk) = some x := by
  rw [varint5_eq x hx, List.append_assoc]
  exact uvarintEnc_dec x (lt_trans hx (by norm_num)) _

theorem varint5_injOn (x y : Nat) (hx : x < 2 ^ 32) (hy : y < 2 ^ 32)
    (h : varint5 x = varint5 y) : x = y := by
  have h1 := readUvarintFrom_varint5 x hx []
  rw [h, readUvarintFrom_varint5 y hy []] at h1
  exact (Option.some.inj h1).symm

/-! ### Ideal-AEAD lemmas -/

theorem encL_injective : Function.Injective encL := by
  intro a
  induction a with
  | nil =>
    intro b h
    cases b with
    | nil => rfl
    | cons x t => simp [encL] at h
  | cons x t ih =>
    intro b h
    cases b with
    | nil => simp [encL] at h
    | cons y u =>
      simp only [encL, List.foldr_cons] at h
      have h' : Nat.pair x (encL t) = Nat.pair y (encL u) := by
        simpa [encL] using h
      rw [Nat.pair_eq_pair] at h'
      obtain ⟨rfl, h2⟩ := h'
      rw [ih h2]

theorem tagOf_inj {k n p a k' n' p' a' : List Nat}
    (h : tagOf k n p a = tagOf k' n' p' a') : k = k' ∧ n = n' ∧ p = p' ∧ a = a' := by
  simp only [tagOf, Nat.pair_eq_pair] at h
  obtain ⟨h1, h2, h3, h4⟩ := h
  exact ⟨encL_injective h1, encL_injective h2, encL_injective h3, encL_injective h4⟩

theorem gcmSeal_length (key nonce p aad : List Nat) :
    (gcmSeal key nonce p aad).length = p.length + gcmOverhead := by
  simp [gcmSeal]

theorem gcmOpen_seal (key nonce p aad : List Nat) :
    gcmOpen key nonce (gcmSeal key nonce p aad) aad = some p := by
  have hlen := gcmSeal_length key nonce p aad
  have hsub : (gcmSeal key nonce p aad).length - gcmOverhead = p.length := by omega
  have hnlt : ¬ (gcmSeal key nonce p aad).length < gcmOverhead := by omega
  have htake : (gcmSeal key nonce p aad).take p.length = p := by
    simp only [gcmSeal]
    exact List.take_left' rfl
  have hdrop : (gcmSeal key nonce p aad).drop p.length =
      List.replicate gcmOverhead (tagOf key nonce p aad) := by
    simp only [gcmSeal]
    exact List.drop_left' rfl
  simp only [gcmOpen, hsub, htake, hdrop, if_neg hnlt, if_pos rfl, if_true]

theorem gcmOpen_eq_some {key nonce c aad p : List Nat}
    (h : gcmOpen key nonce c aad = some p) : c = gcmSeal key nonce p aad := by
  by_cases hlen : c.length < gcmOverhead
  · simp [gcmOpen, hlen] at h
  · rw [gcmOpen, if_neg hlen] at h
    set q := c.take (c.length - gcmOverhead) with hq
    by_cases htag : c.drop (c.length - gcmOverhead) = List.replicate gcmOverhead (tagOf key nonce q aad)
    · rw [if_pos htag] at h
      obtain rfl : q = p := by simpa using h
      rw [gcmSeal, ← htag, hq, List.take_append_drop]
    · rw [if_neg htag] at h
      cases h

theorem gcmOpen_iff (key nonce c aad p : List Nat) :
    gcmOpen key nonce c aad = some p ↔ c = gcmSeal key nonce p aad := by
  constructor
  · exact gcmOpen_eq_some
  · rintro rfl
    exact gcmOpen_seal key nonce p aad

/-! ### Chunk-header parse lemmas -/

theorem varint5_ne_nil (ds : Nat) (hds : ds < 2 ^ 32) : varint5 ds ≠ [] := by
  intro h
  have := varint5_length ds hds
  rw [h] at this
  simp at this

theorem padTo_of_length_le (k : Nat) (l : List Nat) (h : l.length = k) : padTo k l = l := by
  simp only [padTo]
  exact List.take_left' h

theorem readChunkHeader_wf (ct st : Nat) (nonce : List Nat) (ds m : Nat) (rest : List Nat)
    (hct : checkChunkType ct = true) (hst : checkSchemeType st = true)
    (hn : nonce.length < 256) (hds32 : ds < 2 ^ 32) (hdsm : ds ≤ m % 2 ^ 32) :
    readChunkHeader (chunkHeaderBytes ct st nonce ds ++ rest) m =
      ({ ct := ct, st := st, nonce := nonce, dataSize := ds }, none, rest) := by
  have hmod : nonce.length % 256 = nonce.length := Nat.mod_eq_of_lt hn
  have hv5 : (varint5 ds).length = 5 := varint5_length ds hds32
  simp only [chunkHeaderBytes, List.cons_append, hmod, readChunkHeader]
  rw [if_neg (by simp)]
  rw [if_neg (by simp [hct])]
  rw [if_neg (by simp [hst])]
  rw [if_neg (by
    rintro ⟨h1, h2⟩
    rw [List.append_assoc, List.append_eq_nil] at h2
    exact absurd h2.2 (by simp [List.append_eq_nil, varint5_ne_nil ds hds32]))]
  have htk : ((nonce ++ varint5 ds) ++ rest).take nonce.length = nonce := by
    rw [List.append_assoc]
    exact List.take_left nonce _
  have hdr : ((nonce ++ varint5 ds) ++ rest).drop nonce.length = varint5 ds ++ rest := by
    rw [List.append_assoc]
    exact List.drop_left nonce _
  simp only [maxVarintLen32, htk, hdr]
  rw [padTo_of_length_le _ _ rfl]
  rw [if_neg (by simp [List.append_eq_nil, varint5_ne_nil ds hds32])]
  have htk5 : (varint5 ds ++ rest).take 5 = varint5 ds := List.take_left' hv5
  have hdr5 : (varint5 ds ++ rest).drop 5 = rest := List.drop_left' hv5
  simp only [htk5, hdr5]
  rw [padTo_of_length_le _ _ hv5]
  have hread : readUvarintFrom (varint5 ds) = some ds := by
    have := readUvarintFrom_varint5 ds hds32 []
    rwa [List.append_nil] at this
  simp only [hread]
  rw [if_neg (by
    rw [Nat.mod_eq_of_lt hds32]
    omega)]
  rw [Nat.mod_eq_of_lt hds32]

theorem readChunkHeader_success_length {s : List Nat} {m : Nat} {ch : chunkHeader}
    {rest : List Nat} (h : readChunkHeader s m = (ch, none, rest)) :
    rest.length < s.length := by
  rcases s with _ | ⟨b0, s1⟩
  · simp [readChunkHeader] at h
  rcases s1 with _ | ⟨b1, s2⟩
  · simp only [readChunkHeader] at h
    split at h <;> simp at h
  simp only [readChunkHeader] at h
  split at h
  · simp at h
  rcases s2 with _ | ⟨ctb, s3⟩
  · simp at h
  simp only at h
  split at h
  · simp at h
  rcases s3 with _ | ⟨stb, s4⟩
  · simp at h
  simp only at h
  split at h
  · simp at h
  rcases s4 with _ | ⟨nsize, s5⟩
  · simp at h
  simp only at h
  split at h
  · simp at h
  split at h
  · simp at h
  split at h
  · simp at h
  split at h
  · simp at h
  · have h2 := congrArg (fun t : chunkHeader × Option CErr × List Nat => t.2.2) h
    simp only at h2
    rw [← h2]
    simp only [List.length_drop, List.length_cons]
    omega

/-! ### Decrypt-loop fuel irrelevance and step lemmas -/

theorem decryptLoopF_irrel (skey : List Nat) :
    ∀ (n : Nat) (s : List Nat), s.length ≤ n → ∀ (f1 f2 : Nat), s.length < f1 → s.length < f2 →
    ∀ (gk : List Nat) (st : Nat) (out extra : List Nat),
    decryptLoopF skey f1 gk st s out extra = decryptLoopF skey f2 gk st s out extra := by
  intro n
  induction n with
  | zero =>
    intro s hs f1 f2 h1 h2 gk st out extra
    have hnil : s = [] := List.eq_nil_of_length_eq_zero (by omega)
    subst hnil
    obtain ⟨a, rfl⟩ : ∃ a, f1 = a + 1 := ⟨f1 - 1, by omega⟩
    obtain ⟨b, rfl⟩ : ∃ b, f2 = b + 1 := ⟨f2 - 1, by omega⟩
    simp [decryptLoopF, readChunkHeader, chunkTypeTomb]
  | succ n ih =>
    intro s hs f1 f2 h1 h2 gk st out extra
    obtain ⟨a, rfl⟩ : ∃ a, f1 = a + 1 := ⟨f1 - 1, by omega⟩
    obtain ⟨b, rfl⟩ : ∃ b, f2 = b + 1 := ⟨f2 - 1, by omega⟩
    simp only [decryptLoopF]
    rcases hrc : readChunkHeader s maxChunkSizeSanity with ⟨ch, err?, s1⟩
    split
    · rfl
    · split
      · rfl
      · rename_i hne htomb
        have herr : err? = none := by
          rcases herr : err? with _ | e
          · rfl
          · exact absurd ⟨by simp [herr], htomb⟩ hne
        subst herr
        have hs1 : s1.length < s.length := readChunkHeader_success_length hrc
        split
        · rfl
        · split
          · rfl
          · rename_i hr p s2 hok
            have hs2 : s2.length ≤ s1.length := by
              -- s2 is s1 or s1.drop ch.dataSize by the shape of r
              split at hok
              · obtain ⟨rfl, rfl⟩ : ([] : List Nat) = p ∧ s1 = s2 := by
                  constructor <;> [exact congrArg Prod.fst (Except.ok.inj hok);
                    exact congrArg Prod.snd (Except.ok.inj hok)]
                omega
              · split at hok
                · cases hok
                · split at hok
                  · cases hok
                  · obtain ⟨rfl, rfl⟩ : _ ∧ s1.drop ch.dataSize = s2 := by
                      constructor <;> [exact congrArg Prod.fst (Except.ok.inj hok);
                        exact congrArg Prod.snd (Except.ok.inj hok)]
                    simp [List.length_drop]
            split
            · exact ih s2 (by omega) a b (by omega) (by omega) _ _ _ _
            · split
              · exact ih s2 (by omega) a b (by omega) (by omega) _ _ _ _
              · rfl

theorem decryptLoop_eq_F (skey gk : List Nat) (st : Nat) (s out extra : List Nat)
    (f : Nat) (hf : s.length < f) :
    decryptLoop skey gk st s out extra = decryptLoopF skey f gk st s out extra :=
  decryptLoopF_irrel skey s.length s le_rfl (s.length + 1) f (by omega) hf gk st out extra

theorem decryptLoop_nil (skey gk : List Nat) (st : Nat) (out extra : List Nat) :
    decryptLoop skey gk st [] out extra = (some .eof, out, extra) := by
  simp [decryptLoop, decryptLoopF, readChunkHeader, chunkTypeTomb]

/-- processing one well-formed sealed data/extra chunk: the header parses,
the ciphertext authenticates, and the loop continues on the rest of the
stream with the plaintext routed by chunk type. -/
theorem decryptLoop_chunk_step (skey key : List Nat) (ct : Nat) (nonce p rest out extra : List Nat)
    (hct : ct = chunkTypeData ∨ ct = chunkTypeExtra)
    (hn : nonce.length < 256)
    (hp : p.length + gcmOverhead ≤ maxChunkSizeSanity) :
    decryptLoop skey key schemeAES256GCM
      (chunkHeaderBytes ct schemeAES256GCM nonce ((p.length + gcmOverhead) % 2 ^ 32) ++
        (gcmSeal key nonce p [] ++ rest)) out extra =
    decryptLoop skey key schemeAES256GCM rest
      (out ++ if ct = chunkTypeData then p else [])
      (extra ++ if ct = chunkTypeExtra then p else []) := by
  have hsan : maxChunkSizeSanity < 2 ^ 32 := by
    norm_num [maxChunkSizeSanity, maxChunkSizeD, ChunkSize, gcmOverhead]
  have hds32 : p.length + gcmOverhead < 2 ^ 32 := by omega
  have hmod : (p.length + gcmOverhead) % 2 ^ 32 = p.length + gcmOverhead := Nat.mod_eq_of_lt hds32
  have hct' : checkChunkType ct = true := by
    rcases hct with rfl | rfl <;> decide
  have hctne : ct ≠ chunkTypeTomb := by
    rcases hct with rfl | rfl <;> decide
  have hseal := gcmSeal_length key nonce p []
  have hparse := readChunkHeader_wf ct schemeAES256GCM nonce (p.length + gcmOverhead)
    maxChunkSizeSanity (gcmSeal key nonce p [] ++ rest) hct' (by decide) hn hds32
    (by rw [Nat.mod_eq_of_lt hsan]; exact hp)
  have hlen1 : ¬ ((gcmSeal key nonce p [] ++ rest).length < p.length + gcmOverhead) := by
    simp [hseal]
  have htake : (gcmSeal key nonce p [] ++ rest).take (p.length + gcmOverhead) =
      gcmSeal key nonce p [] := List.take_left' hseal
  have hdrop : (gcmSeal key nonce p [] ++ rest).drop (p.length + gcmOverhead) = rest :=
    List.drop_left' hseal
  rw [hmod, decryptLoop, decryptLoopF.eq_2]
  simp only [hparse, Option.isSome_none, Bool.false_eq_true, false_and, if_false,
    if_neg hctne, if_neg (by decide : ¬ (schemeAES256GCM ≠ schemeAES256GCM)),
    if_neg (by simp [gcmOverhead] : ¬ (p.length + gcmOverhead = 0)), if_neg hlen1,
    htake, hdrop, gcmOpen_seal]
  have hfrest : rest.length <
      (chunkHeaderBytes ct schemeAES256GCM nonce (p.length + gcmOverhead) ++
        (gcmSeal key nonce p [] ++ rest)).length := by
    simp [chunkHeaderBytes]
    omega
  rcases hct with rfl | rfl
  · rw [if_neg (by decide), if_pos rfl]
    rw [show (out ++ if chunkTypeData = chunkTypeData then p else []) = out ++ p by simp]
    rw [show (extra ++ if chunkTypeData = chunkTypeExtra then p else []) = extra by
      rw [if_neg (by decide)]; simp]
    exact (decryptLoop_eq_F skey key schemeAES256GCM rest (out ++ p) extra _ hfrest).symm
  · rw [if_pos rfl]
    rw [show (out ++ if chunkTypeExtra = chunkTypeData then p else []) = out by
      rw [if_neg (by decide)]; simp]
    rw [show (extra ++ if chunkTypeExtra = chunkTypeExtra then p else []) = extra ++ p by simp]
    exact (decryptLoop_eq_F skey key schemeAES256GCM rest out (extra ++ p) _ hfrest).symm

/-- a full terminator chunk ends the loop successfully, ignoring anything
after it. -/
theorem decryptLoop_tomb (skey gk : List Nat) (st : Nat) (nonce junk out extra : List Nat)
    (hn : nonce.length < 256) :
    decryptLoop skey gk st (tombChunkBytes nonce ++ junk) out extra = (none, out, extra) := by
  have hparse := readChunkHeader_wf chunkTypeTomb schemeAES256GCM nonce 0
    maxChunkSizeSanity junk (by decide) (by decide) hn (by norm_num) (by omega)
  rw [decryptLoop, decryptLoopF.eq_2]
  simp only [tombChunkBytes, hparse, Option.isSome_none, Bool.false_eq_true,
    false_and, if_false, if_pos rfl, if_true]

/-! ### Plaintext-piece lemmas -/

theorem ChunkSize_pos : 0 < ChunkSize := by norm_num [ChunkSize]

theorem dataPiecesF_irrel : ∀ (n : Nat) (l : List Nat) (f1 f2 : Nat), l.length ≤ n →
    l.length < f1 → l.length < f2 → dataPiecesF f1 l = dataPiecesF f2 l := by
  intro n
  induction n with
  | zero =>
    intro l f1 f2 hl h1 h2
    have : l = [] := List.eq_nil_of_length_eq_zero (by omega)
    subst this
    obtain ⟨a, rfl⟩ : ∃ a, f1 = a + 1 := ⟨f1 - 1, by omega⟩
    obtain ⟨b, rfl⟩ : ∃ b, f2 = b + 1 := ⟨f2 - 1, by omega⟩
    simp [dataPiecesF]
  | succ n ih =>
    intro l f1 f2 hl h1 h2
    obtain ⟨a, rfl⟩ : ∃ a, f1 = a + 1 := ⟨f1 - 1, by omega⟩
    obtain ⟨b, rfl⟩ : ∃ b, f2 = b + 1 := ⟨f2 - 1, by omega⟩
    simp only [dataPiecesF]
    by_cases hnil : l = []
    · simp [hnil]
    · rw [if_neg hnil, if_neg hnil]
      have hpos : 0 < l.length := List.length_pos.mpr hnil
      have hcs := ChunkSize_pos
      have hlen : (l.drop ChunkSize).length < l.length := by
        rw [List.length_drop]
        omega
      rw [ih (l.drop ChunkSize) a b (by omega) (by omega) (by omega)]

theorem dataPieces_unfold (l : List Nat) :
    dataPieces l =
      if l = [] then []
      else (chunkTypeData, l.take ChunkSize) :: dataPieces (l.drop ChunkSize) := by
  rw [dataPieces]
  simp only [dataPiecesF]
  by_cases hnil : l = []
  · simp [hnil]
  · rw [if_neg hnil, if_neg hnil]
    have hpos : 0 < l.length := List.length_pos.mpr hnil
    have hcs := ChunkSize_pos
    have hlen : (l.drop ChunkSize).length < l.length := by
      rw [List.length_drop]
      omega
    rw [dataPiecesF_irrel (l.drop ChunkSize).length (l.drop ChunkSize) l.length
      ((l.drop ChunkSize).length + 1) le_rfl (by omega) (by omega)]
    rfl

theorem dataPieces_shape : ∀ (n : Nat) (l : List Nat), l.length ≤ n →
    ∀ pr ∈ dataPieces l, pr.1 = chunkTypeData ∧ pr.2.length ≤ ChunkSize := by
  intro n
  induction n with
  | zero =>
    intro l hl pr hpr
    have : l = [] := List.eq_nil_of_length_eq_zero (by omega)
    subst this
    rw [dataPieces_unfold] at hpr
    simp at hpr
  | succ n ih =>
    intro l hl pr hpr
    rw [dataPieces_unfold] at hpr
    by_cases hnil : l = []
    · simp [hnil] at hpr
    · rw [if_neg hnil] at hpr
      rcases List.mem_cons.mp hpr with rfl | hmem
      · exact ⟨rfl, by simpa using List.length_take_le ChunkSize l⟩
      · have hpos : 0 < l.length := List.length_pos.mpr hnil
        have hcs := ChunkSize_pos
        exact ih (l.drop ChunkSize) (by rw [List.length_drop]; omega) pr hmem

theorem pieces_shape (extra input : List Nat) (hex : extra.length ≤ ChunkSize) :
    ∀ pr ∈ pieces extra input,
      (pr.1 = chunkTypeData ∨ pr.1 = chunkTypeExtra) ∧ pr.2.length ≤ ChunkSize := by
  intro pr hpr
  rw [pieces] at hpr
  rcases List.mem_append.mp hpr with hmem | hmem
  · by_cases hnil : extra = []
    · simp [hnil] at hmem
    · rw [if_neg hnil] at hmem
      rcases List.mem_singleton.mp hmem with rfl
      exact ⟨Or.inr rfl, by simpa using List.length_take_le ChunkSize extra⟩
  · have := dataPieces_shape input.length input le_rfl pr hmem
    exact ⟨Or.inl this.1, this.2⟩

theorem piecesOut_dataPieces : ∀ (n : Nat) (l : List Nat), l.length ≤ n →
    piecesOut (dataPieces l) = l := by
  intro n
  induction n with
  | zero =>
    intro l hl
    have : l = [] := List.eq_nil_of_length_eq_zero (by omega)
    subst this
    rw [dataPieces_unfold]
    simp [piecesOut]
  | succ n ih =>
    intro l hl
    rw [dataPieces_unfold]
    by_cases hnil : l = []
    · simp [hnil, piecesOut]
    · rw [if_neg hnil]
      have hpos : 0 < l.length := List.length_pos.mpr hnil
      have hcs := ChunkSize_pos
      have := ih (l.drop ChunkSize) (by rw [List.length_drop]; omega)
      simp only [piecesOut, List.map_cons, List.flatten_cons] at this ⊢
      rw [if_true, this, List.take_append_drop]

theorem piecesExtra_dataPieces : ∀ (n : Nat) (l : List Nat), l.length ≤ n →
    piecesExtra (dataPieces l) = [] := by
  intro n
  induction n with
  | zero =>
    intro l hl
    have : l = [] := List.eq_nil_of_length_eq_zero (by omega)
    subst this
    rw [dataPieces_unfold]
    simp [piecesExtra]
  | succ n ih =>
    intro l hl
    rw [dataPieces_unfold]
    by_cases hnil : l = []
    · simp [hnil, piecesExtra]
    · rw [if_neg hnil]
      have hpos : 0 < l.length := List.length_pos.mpr hnil
      have hcs := ChunkSize_pos
      have := ih (l.drop ChunkSize) (by rw [List.length_drop]; omega)
      simp only [piecesExtra, List.map_cons, List.flatten_cons] at this ⊢
      rw [if_neg (by decide), this]
      rfl

theorem piecesOut_pieces (extra input : List Nat) :
    piecesOut (pieces extra input) = input := by
  rw [pieces]
  by_cases hnil : extra = []
  · simp only [if_pos hnil, List.nil_append]
    exact piecesOut_dataPieces input.length input le_rfl
  · rw [if_neg hnil]
    simp only [piecesOut, List.map_append, List.flatten_append, List.map_cons,
      List.flatten_cons]
    rw [if_neg (by decide)]
    have := piecesOut_dataPieces input.length input le_rfl
    rw [piecesOut] at this
    simp [this]

theorem piecesExtra_pieces (extra input : List Nat) (hex : extra.length ≤ ChunkSize) :
    piecesExtra (pieces extra input) = extra := by
  rw [pieces]
  by_cases hnil : extra = []
  · simp only [if_pos hnil, List.nil_append, hnil]
    exact piecesExtra_dataPieces input.length input le_rfl
  · rw [if_neg hnil]
    simp only [piecesExtra, List.map_append, List.flatten_append, List.map_cons,
      List.flatten_cons]
    rw [if_true]
    have := piecesExtra_dataPieces input.length input le_rfl
    rw [piecesExtra] at this
    simp [this, List.take_of_length_le hex]

/-! ### Characterization of the Encrypt loop output -/

theorem chunkStreamN_cons (key nonce : List Nat) (ns : List (List Nat))
    (ct : Nat) (p : List Nat) (ps : List (Nat × List Nat)) :
    chunkStreamN key (nonce :: ns) ((ct, p) :: ps) =
      chunkHeaderBytes ct schemeAES256GCM nonce ((p.length + gcmOverhead) % 2 ^ 32) ++
        gcmSeal key nonce p [] ++ chunkStreamN key ns ps := rfl

theorem writeChunkHeader_valid (ct st : Nat) (nonce : List Nat) (ds : Nat)
    (hct : checkChunkType ct = true) (hst : checkSchemeType st = true) :
    writeChunkHeader { ct := ct, st := st, nonce := nonce, dataSize := ds } =
      .ok (chunkHeaderBytes ct st nonce ds) := by
  rw [writeChunkHeader]
  simp [hct, hst]

theorem nonceOf_length (ctr : Nat) (buf : List Nat) (rand : Nat → List Nat)
    (hbuf : buf.length = gcmNonceSize) : (nonceOf ctr buf rand).length = gcmNonceSize := by
  have h10 := uvarintEnc_length_le_ten ctr
  simp only [nonceOf, List.length_append, List.length_drop, List.length_take, padTo,
    List.length_replicate, hbuf]
  simp only [gcmNonceSize, maxVarintLen32] at *
  omega

/-- a positive `Encrypt` loop iteration with pending extra data: it seals the
extra chunk and continues with no extra data and the same input. -/
theorem encryptLoopF_step_extra (key : List Nat) (rand : Nat → List Nat) (fuel ctr : Nat)
    (buf extra input : List Nat) (hex : 0 < extra.length) :
    encryptLoopF key rand (fuel + 1) ctr buf extra input =
      (encryptLoopF key rand fuel ((ctr + 1) % 2 ^ 32) (nonceOf ctr buf rand) [] input).map
        fun rest =>
          chunkHeaderBytes chunkTypeExtra schemeAES256GCM (nonceOf ctr buf rand)
              (((extra.take ChunkSize).length + gcmOverhead) % 2 ^ 32) ++
            (gcmSeal key (nonceOf ctr buf rand) (extra.take ChunkSize) [] ++ rest) := by
  have hcs := ChunkSize_pos
  have hn0 : ¬ (min extra.length ChunkSize = 0) := by
    simp only [Nat.min_eq_zero_iff]
    omega
  have hclen : 0 < (gcmSeal key (nonceOf ctr buf rand) (extra.take ChunkSize) []).length := by
    rw [gcmSeal_length]
    simp [gcmOverhead]
  simp only [encryptLoopF, if_pos hex, if_neg hn0]
  rw [if_pos hclen,
    writeChunkHeader_valid chunkTypeExtra schemeAES256GCM (nonceOf ctr buf rand) _ rfl rfl,
    gcmSeal_length]
  rcases encryptLoopF key rand fuel ((ctr + 1) % 2 ^ 32) (nonceOf ctr buf rand) [] input with e | rest
  · rfl
  · simp [List.append_assoc]

/-- a positive `Encrypt` loop iteration with no extra data and nonempty
input: it seals the next data chunk and continues on the remaining input. -/
theorem encryptLoopF_step_data (key : List Nat) (rand : Nat → List Nat) (fuel ctr : Nat)
    (buf input : List Nat) (hin : input ≠ []) :
    encryptLoopF key rand (fuel + 1) ctr buf [] input =
      (encryptLoopF key rand fuel ((ctr + 1) % 2 ^ 32) (nonceOf ctr buf rand) []
          (input.drop ChunkSize)).map
        fun rest =>
          chunkHeaderBytes chunkTypeData schemeAES256GCM (nonceOf ctr buf rand)
              (((input.take ChunkSize).length + gcmOverhead) % 2 ^ 32) ++
            (gcmSeal key (nonceOf ctr buf rand) (input.take ChunkSize) [] ++ rest) := by
  have hcs := ChunkSize_pos
  have hinpos : 0 < input.length := List.length_pos.mpr hin
  have hn0 : ¬ (min input.length ChunkSize = 0) := by
    simp only [Nat.min_eq_zero_iff]
    omega
  have hclen : 0 < (gcmSeal key (nonceOf ctr buf rand) (input.take ChunkSize) []).length := by
    rw [gcmSeal_length]
    simp [gcmOverhead]
  simp only [encryptLoopF, List.length_nil, lt_self_iff_false, if_false, if_neg hn0]
  rw [if_pos hclen,
    writeChunkHeader_valid chunkTypeData schemeAES256GCM (nonceOf ctr buf rand) _ rfl rfl,
    gcmSeal_length]
  rcases encryptLoopF key rand fuel ((ctr + 1) % 2 ^ 32) (nonceOf ctr buf rand) []
      (input.drop ChunkSize) with e | rest
  · rfl
  · simp [List.append_assoc]

/-- the `Encrypt` loop stops at exhausted inputs. -/
theorem encryptLoopF_step_nil (key : List Nat) (rand : Nat → List Nat) (fuel ctr : Nat)
    (buf : List Nat) :
    encryptLoopF key rand (fuel + 1) ctr buf [] [] = .ok [] := by
  simp [encryptLoopF]

/-- the `Encrypt` loop on exhausted inputs at any fuel. -/
theorem encryptLoopF_nil_any (key : List Nat) (rand : Nat → List Nat) (fuel ctr : Nat)
    (buf : List Nat) :
    encryptLoopF key rand fuel ctr buf [] [] = .ok [] := by
  cases fuel with
  | zero => rfl
  | succ f => exact encryptLoopF_step_nil key rand f ctr buf

theorem encryptLoopF_chunks : ∀ (fuel : Nat) (extra input : List Nat) (ctr : Nat)
    (buf key : List Nat) (rand : Nat → List Nat),
    extra.length + input.length < fuel → buf.length = gcmNonceSize →
    ∃ ns : List (List Nat), ns.length = (pieces extra input).length ∧
      (∀ nn ∈ ns, nn.length = gcmNonceSize) ∧
      encryptLoopF key rand fuel ctr buf extra input =
        .ok (chunkStreamN key ns (pieces extra input)) := by
  intro fuel
  induction fuel with
  | zero => intro extra input ctr buf key rand h _; omega
  | succ fuel ih =>
    intro extra input ctr buf key rand h hbuf
    have hcs := ChunkSize_pos
    have hnonce := nonceOf_length ctr buf rand hbuf
    by_cases hex : 0 < extra.length
    · -- this iteration seals the extra-metadata chunk
      have hexne : extra ≠ [] := by
        intro hcon
        rw [hcon] at hex
        simp at hex
      obtain ⟨ns, hlen, hall, hrec⟩ :=
        ih [] input ((ctr + 1) % 2 ^ 32) _ key rand (by simp; omega) hnonce
      refine ⟨nonceOf ctr buf rand :: ns, ?_, ?_, ?_⟩
      · simp only [pieces, if_neg hexne, List.nil_append] at hlen ⊢
        simp [hlen]
      · intro nn hnn
        rcases List.mem_cons.mp hnn with rfl | hmem
        · exact hnonce
        · exact hall nn hmem
      · rw [encryptLoopF_step_extra key rand fuel ctr buf extra input hex, hrec]
        simp only [Except.map, pieces, if_neg hexne, List.cons_append, List.nil_append,
          if_true, chunkStreamN_cons, List.append_assoc]
    · -- no pending extra data: read from the input
      have hexnil : extra = [] := by
        cases extra with
        | nil => rfl
        | cons a t => simp at hex
      subst hexnil
      by_cases hinnil : input = []
      · subst hinnil
        refine ⟨[], ?_, by simp, ?_⟩
        · simp [pieces, dataPieces_unfold]
        · rw [encryptLoopF_step_nil]
          simp [pieces, dataPieces_unfold, chunkStreamN]
      · have hinpos : 0 < input.length := List.length_pos.mpr hinnil
        obtain ⟨ns, hlen, hall, hrec⟩ :=
          ih [] (input.drop ChunkSize) ((ctr + 1) % 2 ^ 32) _ key rand
            (by simp only [List.length_nil, List.length_drop, Nat.zero_add]; omega) hnonce
        refine ⟨nonceOf ctr buf rand :: ns, ?_, ?_, ?_⟩
        · simp only [pieces, List.nil_append] at hlen ⊢
          rw [dataPieces_unfold, if_neg hinnil]
          simp [hlen]
        · intro nn hnn
          rcases List.mem_cons.mp hnn with rfl | hmem
          · exact hnonce
          · exact hall nn hmem
        · rw [encryptLoopF_step_data key rand fuel ctr buf input hinnil, hrec]
          simp only [Except.map, pieces, List.nil_append]
          rw [show dataPieces input = (chunkTypeData, input.take ChunkSize) ::
              dataPieces (input.drop ChunkSize) from by rw [dataPieces_unfold, if_neg hinnil]]
          simp only [Except.map, if_true, List.nil_append, chunkStreamN_cons,
            List.append_assoc]

/-- the output of a successful `Encrypt` run is the sealed chunks of its
pieces followed by the tomb chunk, for some list of 12-byte nonces. -/
theorem Encrypt_chunks (input key extra : List Nat) (rand : Nat → List Nat) (randTomb : List Nat)
    (hex : extra.length ≤ ChunkSize) :
    ∃ ns : List (List Nat), ns.length = (pieces extra input).length ∧
      (∀ nn ∈ ns, nn.length = gcmNonceSize) ∧
      Encrypt input key extra rand randTomb =
        .ok (chunkStreamN key ns (pieces extra input) ++
          tombChunkBytes (padTo gcmNonceSize randTomb)) := by
  obtain ⟨ns, h1, h2, h3⟩ := encryptLoopF_chunks (extra.length + input.length + 1) extra input 1
    (List.replicate gcmNonceSize 0) key rand (by omega) (by simp)
  refine ⟨ns, h1, h2, ?_⟩
  rw [Encrypt, if_neg (by omega)]
  simp only [getGCM, getAES256GCM, if_pos rfl, if_true]
  rw [h3]
  rw [writeChunkHeader_valid chunkTypeTomb schemeAES256GCM (padTo gcmNonceSize randTomb) 0
    rfl rfl]
  rfl

/-- running the decrypt loop over a stream of well-formed sealed chunks
followed by a terminator: every chunk authenticates and is routed by kind,
and the loop ends successfully at the terminator. -/
theorem decryptLoop_run : ∀ (ps : List (Nat × List Nat)) (ns : List (List Nat))
    (key tn junk out extra : List Nat),
    ns.length = ps.length → (∀ nn ∈ ns, nn.length = gcmNonceSize) →
    (∀ pr ∈ ps, (pr.1 = chunkTypeData ∨ pr.1 = chunkTypeExtra) ∧ pr.2.length ≤ ChunkSize) →
    tn.length < 256 →
    decryptLoop key key schemeAES256GCM
      (chunkStreamN key ns ps ++ (tombChunkBytes tn ++ junk)) out extra =
      (none, out ++ piecesOut ps, extra ++ piecesExtra ps) := by
  intro ps
  induction ps with
  | nil =>
    intro ns key tn junk out extra hlen hns hps htn
    have hnsnil : ns = [] := List.eq_nil_of_length_eq_zero (by simpa using hlen)
    subst hnsnil
    rw [show chunkStreamN key [] [] = [] from rfl, List.nil_append,
      decryptLoop_tomb key key schemeAES256GCM tn junk out extra htn]
    simp [piecesOut, piecesExtra]
  | cons pr ps ih =>
    intro ns key tn junk out extra hlen hns hps htn
    rcases ns with _ | ⟨nn, ns⟩
    · simp at hlen
    rcases pr with ⟨ct, p⟩
    have hshape := hps (ct, p) (List.mem_cons_self _ _)
    have hnn : nn.length = gcmNonceSize := hns nn (List.mem_cons_self _ _)
    have hnn256 : nn.length < 256 := by
      rw [hnn]
      norm_num [gcmNonceSize]
    have hpbound : p.length + gcmOverhead ≤ maxChunkSizeSanity := by
      have := hshape.2
      simp only [maxChunkSizeSanity, maxChunkSizeD, ChunkSize, gcmOverhead] at *
      omega
    rw [chunkStreamN_cons]
    simp only [List.append_assoc]
    rw [decryptLoop_chunk_step key key ct nn p
      (chunkStreamN key ns ps ++ (tombChunkBytes tn ++ junk)) out extra hshape.1 hnn256 hpbound]
    rw [ih ns key tn junk _ _ (by simpa using hlen)
      (fun x hx => hns x (List.mem_cons_of_mem _ hx))
      (fun x hx => hps x (List.mem_cons_of_mem _ hx)) htn]
    simp only [piecesOut, piecesExtra, List.map_cons, List.flatten_cons, List.append_assoc]

theorem padTo_length (k : Nat) (l : List Nat) : (padTo k l).length = k := by
  simp [padTo]

/-! ### Claim C2 -/

/-- C2: for every byte sequence `P` (including the empty sequence), every key
`K`, and every extra-metadata blob `M` with `len(M) <= maxChunkSize`,
decrypting the stream produced by encrypting `P` under `K` with `M` yields
exactly plaintext `P` and returned extra `M`; with `M = []` (no metadata
supplied) decryption returns `P` and empty extra.  Quantified over every
draw of the CSPRNG. -/
theorem c2_roundtrip (P key M : List Nat) (rand : Nat → List Nat) (randTomb : List Nat)
    (hM : M.length ≤ ChunkSize) :
    ∃ s, Encrypt P key M rand randTomb = .ok s ∧ Decrypt s key = (none, P, M) := by
  obtain ⟨ns, h1, h2, h3⟩ := Encrypt_chunks P key M rand randTomb hM
  refine ⟨_, h3, ?_⟩
  rw [Decrypt]
  simp only [getGCM, getAES256GCM, if_pos rfl, if_true]
  rw [show chunkStreamN key ns (pieces M P) ++ tombChunkBytes (padTo gcmNonceSize randTomb) =
      chunkStreamN key ns (pieces M P) ++ (tombChunkBytes (padTo gcmNonceSize randTomb) ++ [])
    from by simp]
  rw [decryptLoop_run (pieces M P) ns key (padTo gcmNonceSize randTomb) [] [] [] h1 h2
    (pieces_shape M P hM) (by rw [padTo_length]; norm_num [gcmNonceSize])]
  rw [piecesOut_pieces, piecesExtra_pieces M P hM]
  simp

/-- witness for C2 at concrete inputs. -/
theorem c2_roundtrip_witness :
    ([66] : List Nat).length ≤ ChunkSize ∧
      ∃ s, Encrypt [65] [107] [66] (fun _ => []) [] = .ok s ∧
        Decrypt s [107] = (none, [65], [66]) :=
  ⟨by norm_num [ChunkSize],
    c2_roundtrip [65] [107] [66] (fun _ => []) [] (by norm_num [ChunkSize])⟩

/-- one-step unfolding of the decrypt loop with the recursive occurrences
renormalized to `decryptLoop` (fuel irrelevance), used for the truncation
case analyses. -/
theorem decryptLoop_unfold (skey gk : List Nat) (st : Nat) (s out extra : List Nat) :
    decryptLoop skey gk st s out extra =
      match readChunkHeader s maxChunkSizeSanity with
      | (ch, err?, s1) =>
        if err?.isSome ∧ ch.ct ≠ chunkTypeTomb then (err?, out, extra)
        else if ch.ct = chunkTypeTomb then (none, out, extra)
        else
          match (if ch.st ≠ st then getGCM skey ch.st else .ok gk) with
          | .error e => (some e, out, extra)
          | .ok gk' =>
            match (if ch.dataSize = 0 then Except.ok ([], s1)
              else if s1.length < ch.dataSize then
                Except.error (if s1.isEmpty then CErr.eof else CErr.unexpectedEof)
              else match gcmOpen gk' ch.nonce (s1.take ch.dataSize) [] with
                | none => Except.error CErr.authFailed
                | some p => Except.ok (p, s1.drop ch.dataSize)) with
            | .error e => (some e, out, extra)
            | .ok (p, s2) =>
              if ch.ct = chunkTypeExtra then decryptLoop skey gk' ch.st s2 out (extra ++ p)
              else if ch.ct = chunkTypeData then decryptLoop skey gk' ch.st s2 (out ++ p) extra
              else (some CErr.invalidRoutedChunkType, out, extra) := by
  rw [decryptLoop, decryptLoopF.eq_2]
  rcases hrc : readChunkHeader s maxChunkSizeSanity with ⟨ch, err?, s1⟩
  simp only
  split
  · rfl
  · split
    · rfl
    · rename_i hne htomb
      have herr : err? = none := by
        rcases herr : err? with _ | e
        · rfl
        · exact absurd ⟨by simp [herr], htomb⟩ hne
      subst herr
      have hs1 : s1.length < s.length := readChunkHeader_success_length hrc
      split
      · rfl
      · split
        · rfl
        · rename_i hr p s2 hok
          have hs2 : s2.length ≤ s1.length := by
            split at hok
            · obtain ⟨rfl, rfl⟩ : ([] : List Nat) = p ∧ s1 = s2 := by
                constructor <;> [exact congrArg Prod.fst (Except.ok.inj hok);
                  exact congrArg Prod.snd (Except.ok.inj hok)]
              omega
            · split at hok
              · cases hok
              · split at hok
                · cases hok
                · obtain ⟨rfl, rfl⟩ : _ ∧ s1.drop ch.dataSize = s2 := by
                    constructor <;> [exact congrArg Prod.fst (Except.ok.inj hok);
                      exact congrArg Prod.snd (Except.ok.inj hok)]
                  simp [List.length_drop]
          split
          · exact decryptLoopF_irrel skey s2.length s2 le_rfl s.length (s2.length + 1)
              (by omega) (by omega) _ _ _ _
          · split
            · exact decryptLoopF_irrel skey s2.length s2 le_rfl s.length (s2.length + 1)
                (by omega) (by omega) _ _ _ _
            · rfl

/-! ### Claim C8 -/

/-- C8: for every chunk header with a valid chunk kind, a valid scheme id, a
nonce of at most 255 bytes, and a declared ciphertext length not exceeding
the parser's size bound, `readChunkHeader` applied to the bytes emitted by
`writeChunkHeader` returns a header equal to the original with the following
stream untouched (the mirrored parse), and `writeChunkHeader` validates kind
and scheme before emitting any bytes, failing without output on an invalid
kind or scheme. -/
theorem c8_chunk_header_roundtrip (ch : chunkHeader) (m : Nat) (rest : List Nat)
    (hct : checkChunkType ch.ct = true) (hst : checkSchemeType ch.st = true)
    (hn : ch.nonce.length ≤ 255) (hds : ch.dataSize ≤ m % 2 ^ 32) :
    (∃ bs, writeChunkHeader ch = .ok bs ∧ readChunkHeader (bs ++ rest) m = (ch, none, rest)) ∧
    (∀ ch' : chunkHeader, checkChunkType ch'.ct = false →
      writeChunkHeader ch' = .error .invalidChunkType) ∧
    (∀ ch' : chunkHeader, checkChunkType ch'.ct = true → checkSchemeType ch'.st = false →
      writeChunkHeader ch' = .error .invalidSchemeType) := by
  refine ⟨⟨chunkHeaderBytes ch.ct ch.st ch.nonce ch.dataSize, ?_, ?_⟩, ?_, ?_⟩
  · rw [writeChunkHeader]
    simp [hct, hst]
  · have hds32 : ch.dataSize < 2 ^ 32 :=
      lt_of_le_of_lt hds (Nat.mod_lt m (by norm_num))
    have := readChunkHeader_wf ch.ct ch.st ch.nonce ch.dataSize m rest hct hst
      (by omega) hds32 hds
    rw [this]
  · intro ch' h
    rw [writeChunkHeader]
    simp [h]
  · intro ch' h1 h2
    rw [writeChunkHeader]
    simp [h1, h2]

/-- witness for C8 at a concrete header. -/
theorem c8_chunk_header_roundtrip_witness :
    (checkChunkType ({ ct := chunkTypeData, st := schemeAES256GCM, nonce := List.replicate 12 7, dataSize := 1024 } : chunkHeader).ct = true ∧
      (List.replicate (12 : Nat) (7 : Nat)).length ≤ 255 ∧ (1024 : Nat) ≤ 1024000 % 2 ^ 32) ∧
    ((∃ bs, writeChunkHeader { ct := chunkTypeData, st := schemeAES256GCM, nonce := List.replicate 12 7, dataSize := 1024 } = .ok bs ∧
        readChunkHeader (bs ++ [9]) 1024000 =
          (({ ct := chunkTypeData, st := schemeAES256GCM, nonce := List.replicate 12 7, dataSize := 1024 } : chunkHeader), none, [9])) ∧
      (∀ ch' : chunkHeader, checkChunkType ch'.ct = false →
        writeChunkHeader ch' = .error .invalidChunkType) ∧
      (∀ ch' : chunkHeader, checkChunkType ch'.ct = true → checkSchemeType ch'.st = false →
        writeChunkHeader ch' = .error .invalidSchemeType)) :=
  ⟨⟨by decide, by decide, by decide⟩,
    c8_chunk_header_roundtrip
      { ct := chunkTypeData, st := schemeAES256GCM, nonce := List.replicate 12 7, dataSize := 1024 } 1024000 [9]
      (by decide) (by decide) (by decide) (by decide)⟩

/-! ### Claim C6 -/

theorem readChunkHeader_oversize (ct st : Nat) (nonce : List Nat) (ds m : Nat)
    (payload : List Nat)
    (hct : checkChunkType ct = true) (hst : checkSchemeType st = true)
    (hn : nonce.length < 256) (hds32 : ds < 2 ^ 32) (hdsm : ds > m % 2 ^ 32) :
    readChunkHeader (chunkHeaderBytes ct st nonce ds ++ payload) m =
      ({ ct := ct, st := st, nonce := nonce, dataSize := ds }, some .invalidChunkSize, payload) := by
  have hmod : nonce.length % 256 = nonce.length := Nat.mod_eq_of_lt hn
  have hv5 : (varint5 ds).length = 5 := varint5_length ds hds32
  simp only [chunkHeaderBytes, List.cons_append, hmod, readChunkHeader]
  rw [if_neg (by simp)]
  rw [if_neg (by simp [hct])]
  rw [if_neg (by simp [hst])]
  rw [if_neg (by
    rintro ⟨h1, h2⟩
    rw [List.append_assoc, List.append_eq_nil] at h2
    exact absurd h2.2 (by simp [List.append_eq_nil, varint5_ne_nil ds hds32]))]
  have htk : ((nonce ++ varint5 ds) ++ payload).take nonce.length = nonce := by
    rw [List.append_assoc]
    exact List.take_left nonce _
  have hdr : ((nonce ++ varint5 ds) ++ payload).drop nonce.length = varint5 ds ++ payload := by
    rw [List.append_assoc]
    exact List.drop_left nonce _
  simp only [maxVarintLen32, htk, hdr]
  rw [padTo_of_length_le _ _ rfl]
  rw [if_neg (by simp [List.append_eq_nil, varint5_ne_nil ds hds32])]
  have htk5 : (varint5 ds ++ payload).take 5 = varint5 ds := List.take_left' hv5
  have hdr5 : (varint5 ds ++ payload).drop 5 = payload := List.drop_left' hv5
  simp only [htk5, hdr5]
  rw [padTo_of_length_le _ _ hv5]
  have hread : readUvarintFrom (varint5 ds) = some ds := by
    have := readUvarintFrom_varint5 ds hds32 []
    rwa [List.append_nil] at this
  simp only [hread]
  rw [if_pos (by rw [Nat.mod_eq_of_lt hds32]; omega)]
  rw [Nat.mod_eq_of_lt hds32]

/-- C6, corrected: when parsing a chunk header, a declared ciphertext length
whose `uint32` value exceeds the configured maximum is rejected as an
oversized chunk, fatally and with the payload bytes still unconsumed; the
nonce length, however, is carried in a single byte (at most 255) and is not
checked against any ceiling — in particular no 128-byte bound exists. -/
theorem c6_size_bound_no_nonce_bound (ct st : Nat) (nonce : List Nat) (ds m : Nat)
    (payload : List Nat)
    (hct : checkChunkType ct = true) (hst : checkSchemeType st = true)
    (hn : nonce.length < 256) (hds32 : ds < 2 ^ 32) (hdsm : ds > m % 2 ^ 32) :
    (readChunkHeader (chunkHeaderBytes ct st nonce ds ++ payload) m).2.1 =
        some .invalidChunkSize ∧
      (readChunkHeader (chunkHeaderBytes ct st nonce ds ++ payload) m).2.2 = payload ∧
      (∀ ds' : Nat, ds' ≤ m % 2 ^ 32 → ds' < 2 ^ 32 →
        (readChunkHeader (chunkHeaderBytes ct st nonce ds' ++ payload) m).2.1 = none) := by
  rw [readChunkHeader_oversize ct st nonce ds m payload hct hst hn hds32 hdsm]
  refine ⟨rfl, rfl, fun ds' h1 h2 => ?_⟩
  rw [readChunkHeader_wf ct st nonce ds' m payload hct hst hn h2 h1]

set_option maxRecDepth 100000 in
/-- witness for the corrected C6 at concrete inputs (including a 200-byte
nonce, far over the claimed 128-byte ceiling, parsed without complaint). -/
theorem c6_size_bound_no_nonce_bound_witness :
    (checkChunkType chunkTypeData = true ∧ (List.replicate (200 : Nat) 0).length < 256 ∧
      (3000000 : Nat) > 2048032 % 2 ^ 32) ∧
    ((readChunkHeader (chunkHeaderBytes chunkTypeData schemeAES256GCM
        (List.replicate 200 0) 3000000 ++ [5]) 2048032).2.1 = some .invalidChunkSize ∧
      (readChunkHeader (chunkHeaderBytes chunkTypeData schemeAES256GCM
        (List.replicate 200 0) 3000000 ++ [5]) 2048032).2.2 = [5] ∧
      (∀ ds' : Nat, ds' ≤ 2048032 % 2 ^ 32 → ds' < 2 ^ 32 →
        (readChunkHeader (chunkHeaderBytes chunkTypeData schemeAES256GCM
          (List.replicate 200 0) ds' ++ [5]) 2048032).2.1 = none)) :=
  ⟨⟨by decide, by decide, by decide⟩,
    c6_size_bound_no_nonce_bound chunkTypeData schemeAES256GCM (List.replicate 200 0)
      3000000 2048032 [5] (by decide) (by decide) (by decide) (by decide) (by decide)⟩

set_option maxRecDepth 100000 in
/-- counterexample to C6 as stated: a chunk header declaring a 200-byte
nonce — over the claimed hard ceiling of 128 — parses successfully; no
invalid-nonce-length rejection exists in `readChunkHeader`. -/
theorem c6_counterexample :
    (readChunkHeader (chunkHeaderBytes chunkTypeData schemeAES256GCM
        (List.replicate 200 3) 10 ++ []) maxChunkSizeSanity).2.1 = none ∧
      (200 : Nat) > 128 := by
  constructor
  · rw [readChunkHeader_wf chunkTypeData schemeAES256GCM (List.replicate 200 3) 10
      maxChunkSizeSanity [] (by decide) (by decide) (by decide) (by decide) (by decide)]
  · decide

/-! ### Claim C7 -/

/-- C7, refuted by the code: `(h *header) write` does not propagate the
underlying writer's error.  On a sink that fails every write (capacity 0),
the first field write fails with the writer-full error, yet `headerWrite`
returns no error (header.go's field loop does `return nil` on a failed
write), so the caller sees success while nothing was written. -/
theorem c7_headerWrite_swallows_io_error :
    (lwWrite { written := [], limit := 0 } [headerSizeByte]).2 = some .writerFull ∧
    headerWrite { written := [], limit := 0 } = ({ written := [], limit := 0 }, none) := by
  decide

/-! ### Claim C1 -/

set_option maxRecDepth 1000000 in
/-- C1, refuted by the code: `Encrypt` seals every chunk with nil Additional
Authenticated Data (`gcm.Seal(cbuf[:0], nonce, p, nil)`) and `Decrypt` opens
each chunk with the nonce carried in that chunk's own header, again with nil
AAD, so nothing binds a chunk to its position.  Duplicating the data chunk
of a valid stream (header bytes and terminator intact) decrypts without any
error and silently yields the duplicated plaintext `[0x41, 0x41]` instead of
`[0x41]`. -/
theorem c1_duplicated_chunk_decrypts :
    Encrypt [65] [107] [66] (fun _ => []) [] = .ok dupEncStream ∧
    Decrypt dupEncStream [107] = (none, [65], [66]) ∧
    Decrypt dupTamperedStream [107] = (none, [65, 65], [66]) := by
  decide

/-! ### Claim C3 -/

theorem dataPieces_eq_nil {l : List Nat} (h : dataPieces l = []) : l = [] := by
  by_contra hne
  rw [dataPieces_unfold, if_neg hne] at h
  cases h

/-- C3, corrected: every stream produced by `Encrypt` is exactly the
sequence of `[ChunkHeader][ciphertext]` pairs for its pieces followed by the
terminator chunk — no StreamHeader is written; an empty input (and no extra
metadata) produces the terminator chunk alone; `Decrypt` parses chunk
headers immediately, reading and validating no stream header. -/
theorem c3_no_stream_header (P key M : List Nat) (rand : Nat → List Nat) (randTomb : List Nat)
    (hM : M.length ≤ ChunkSize) :
    (∃ ns, ns.length = (pieces M P).length ∧ (∀ nn ∈ ns, nn.length = gcmNonceSize) ∧
      Encrypt P key M rand randTomb =
        .ok (chunkStreamN key ns (pieces M P) ++ tombChunkBytes (padTo gcmNonceSize randTomb))) ∧
    (P = [] → M = [] →
      Encrypt P key M rand randTomb = .ok (tombChunkBytes (padTo gcmNonceSize randTomb))) := by
  refine ⟨Encrypt_chunks P key M rand randTomb hM, ?_⟩
  rintro rfl rfl
  obtain ⟨ns, h1, h2, h3⟩ := Encrypt_chunks [] key [] rand randTomb hM
  have hps : pieces [] [] = [] := by simp [pieces, dataPieces_unfold]
  rw [hps] at h1 h3
  have hns : ns = [] := List.eq_nil_of_length_eq_zero (by simpa using h1)
  subst hns
  simpa using h3

set_option maxRecDepth 100000 in
/-- counterexample to C3 as stated: encrypting an empty input yields the
22-byte terminator chunk alone, which starts with the chunk tag "ct", not
with a StreamHeader (whose bytes `streamHeaderBytes` start with the declared
size 13 and magic "sc"); and `Decrypt` succeeds on this stream even though
it contains no stream header at all, so no header is read or validated
before chunk processing. -/
theorem c3_counterexample :
    Encrypt [] [107] [] (fun _ => []) [] = .ok (tombChunkBytes (padTo gcmNonceSize [])) ∧
    (tombChunkBytes (padTo gcmNonceSize [])).take 2 ≠ streamHeaderBytes.take 2 ∧
    Decrypt (tombChunkBytes (padTo gcmNonceSize [])) [107] = (none, [], []) := by
  decide

/-- witness for the corrected C3 at concrete inputs. -/
theorem c3_no_stream_header_witness :
    ([] : List Nat).length ≤ ChunkSize ∧
    ((∃ ns, ns.length = (pieces [] []).length ∧ (∀ nn ∈ ns, nn.length = gcmNonceSize) ∧
      Encrypt [] [107] [] (fun _ => []) [] =
        .ok (chunkStreamN [107] ns (pieces [] []) ++ tombChunkBytes (padTo gcmNonceSize []))) ∧
    (([] : List Nat) = [] → ([] : List Nat) = [] →
      Encrypt [] [107] [] (fun _ => []) [] = .ok (tombChunkBytes (padTo gcmNonceSize [])))) :=
  ⟨by norm_num [ChunkSize],
    c3_no_stream_header [] [107] [] (fun _ => []) [] (by norm_num [ChunkSize])⟩

/-! ### Claim C10 -/

theorem uvarintEncAux_length_mono (fuel : Nat) : ∀ (x y : Nat), x ≤ y →
    (uvarintEncAux fuel x).length ≤ (uvarintEncAux fuel y).length := by
  induction fuel with
  | zero => intro x y _; simp [uvarintEncAux]
  | succ fuel ih =>
    intro x y hxy
    simp only [uvarintEncAux]
    by_cases hy : y < 128
    · rw [if_pos (by omega), if_pos hy]
      simp
    · rw [if_neg hy]
      by_cases hx : x < 128
      · rw [if_pos hx]
        simp
      · rw [if_neg hx]
        simp only [List.length_cons]
        exact Nat.succ_le_succ (ih (x / 128) (y / 128) (Nat.div_le_div_right hxy))

theorem uvarintEnc_length_mono {x y : Nat} (h : x ≤ y) :
    (uvarintEnc x).length ≤ (uvarintEnc y).length :=
  uvarintEncAux_length_mono 9 x y h

theorem getD_replicate_zero (n i : Nat) : (List.replicate n (0 : Nat)).getD i 0 = 0 := by
  rcases Nat.lt_or_ge i n with h | h
  · rw [List.getD_eq_getElem _ _ (by simpa using h)]
    simp
  · rw [List.getD_eq_default _ _ (by simpa using h)]

theorem drop_take_replicate (buf : List Nat) (k : Nat) (hbuf : buf.length = gcmNonceSize)
    (hk : k ≤ maxVarintLen32)
    (hJ : ∀ i, k ≤ i → i < maxVarintLen32 → buf.getD i 0 = 0) :
    (buf.take maxVarintLen32).drop k = List.replicate (maxVarintLen32 - k) 0 := by
  have hlen : ((buf.take maxVarintLen32).drop k).length = maxVarintLen32 - k := by
    simp only [List.length_drop, List.length_take, hbuf]
    simp [maxVarintLen32, gcmNonceSize]
  rw [List.eq_replicate_iff]
  refine ⟨hlen, fun b hb => ?_⟩
  obtain ⟨i, hi, hget⟩ := List.mem_iff_getElem.mp hb
  rw [hlen] at hi
  have hik : k + i < maxVarintLen32 := by omega
  have hibuf : k + i < buf.length := by
    rw [hbuf]
    simp only [maxVarintLen32, gcmNonceSize] at *
    omega
  have : ((buf.take maxVarintLen32).drop k)[i] = buf[k + i] := by
    rw [List.getElem_drop]
    exact List.getElem_take ..
  rw [this] at hget
  rw [← hget, ← List.getD_eq_getElem buf 0 hibuf]
  exact hJ (k + i) (by omega) hik

theorem nonceOf_varint (ctr : Nat) (buf : List Nat) (rand : Nat → List Nat)
    (hbuf : buf.length = gcmNonceSize) (hctr : ctr < 2 ^ 32)
    (hJ : ∀ i, (uvarintEnc ctr).length ≤ i → i < maxVarintLen32 → buf.getD i 0 = 0) :
    nonceOf ctr buf rand =
      varint5 ctr ++ padTo (gcmNonceSize - maxVarintLen32) (rand ctr) := by
  have h5 := uvarintEnc_length_le_five ctr hctr
  have htklen : (buf.take maxVarintLen32).length = maxVarintLen32 := by
    simp only [List.length_take, hbuf]
    simp [maxVarintLen32, gcmNonceSize]
  rw [nonceOf, List.drop_append_of_le_length (by rw [htklen]; simp only [maxVarintLen32]; omega)]
  rw [drop_take_replicate buf (uvarintEnc ctr).length hbuf
    (by simp only [maxVarintLen32]; omega) hJ]
  rw [varint5_eq ctr hctr, List.append_assoc]
  rfl

theorem nonceList_succ (rand : Nat → List Nat) (ctr m : Nat) :
    nonceList rand ctr (m + 1) = nonceAt rand ctr 0 :: nonceList rand (ctr + 1) m := by
  simp only [nonceList, List.range_succ_eq_map, List.map_cons, List.map_map]
  congr 1
  apply List.map_congr_left
  intro j _
  simp only [Function.comp_apply, nonceAt]
  rw [show ctr + Nat.succ j = ctr + 1 + j from by omega]

theorem encryptLoopF_nonces : ∀ (fuel : Nat) (extra input : List Nat) (ctr : Nat)
    (buf key : List Nat) (rand : Nat → List Nat),
    extra.length + input.length < fuel → buf.length = gcmNonceSize →
    ctr + (pieces extra input).length ≤ 2 ^ 32 →
    (∀ i, (uvarintEnc ctr).length ≤ i → i < maxVarintLen32 → buf.getD i 0 = 0) →
    encryptLoopF key rand fuel ctr buf extra input =
      .ok (chunkStreamN key (nonceList rand ctr (pieces extra input).length)
        (pieces extra input)) := by
  intro fuel
  induction fuel with
  | zero => intro extra input ctr buf key rand h _ _ _; omega
  | succ fuel ih =>
    intro extra input ctr buf key rand h hbuf hwrap hJ
    have hcs := ChunkSize_pos
    by_cases hex : 0 < extra.length
    · have hexne : extra ≠ [] := by
        intro hcon
        rw [hcon] at hex
        simp at hex
      have hcount : (pieces extra input).length = (dataPieces input).length + 1 := by
        simp [pieces, hexne]
      have hctr32 : ctr < 2 ^ 32 := by omega
      have hnonce := nonceOf_varint ctr buf rand hbuf hctr32 hJ
      have hnoncelen := nonceOf_length ctr buf rand hbuf
      rw [encryptLoopF_step_extra key rand fuel ctr buf extra input hex]
      rw [hcount, nonceList_succ]
      rw [show pieces extra input = (chunkTypeExtra, extra.take ChunkSize) :: dataPieces input
        from by simp [pieces, hexne]]
      by_cases hrest : dataPieces input = []
      · have hinnil : input = [] := dataPieces_eq_nil hrest
        subst hinnil
        rw [encryptLoopF_nil_any]
        simp only [Except.map, hrest]
        simp [chunkStreamN, nonceList, nonceAt, hnonce]
      · have hrestpos : 0 < (dataPieces input).length := List.length_pos.mpr hrest
        have hctr1 : ctr + 1 < 2 ^ 32 := by
          rw [hcount] at hwrap
          omega
        have hJ' : ∀ i, (uvarintEnc (ctr + 1)).length ≤ i → i < maxVarintLen32 →
            (nonceOf ctr buf rand).getD i 0 = 0 := by
          intro i hi1 hi5
          rw [hnonce]
          have hmono : (uvarintEnc ctr).length ≤ (uvarintEnc (ctr + 1)).length :=
            uvarintEnc_length_mono (by omega)
          have hv5len : (varint5 ctr).length = 5 := varint5_length ctr hctr32
          rw [List.getD_append _ _ _ _ (by
            rw [hv5len]
            simpa [maxVarintLen32] using hi5)]
          rw [varint5_eq ctr hctr32]
          rw [List.getD_append_right _ _ _ _ (by omega)]
          exact getD_replicate_zero _ _
        have := ih [] input (ctr + 1) (nonceOf ctr buf rand) key rand
          (by simp; omega) (nonceOf_length ctr buf rand hbuf)
          (by rw [show (pieces [] input).length = (dataPieces input).length from by simp [pieces]]
              rw [hcount] at hwrap
              omega) hJ'
        rw [show ((ctr + 1) % 2 ^ 32) = ctr + 1 from Nat.mod_eq_of_lt hctr1, this]
        simp only [Except.map]
        rw [show pieces [] input = dataPieces input from by simp [pieces]]
        rw [chunkStreamN_cons, hnonce]
        simp [nonceAt, List.append_assoc]
    · have hexnil : extra = [] := by
        cases extra with
        | nil => rfl
        | cons a t => simp at hex
      subst hexnil
      by_cases hinnil : input = []
      · subst hinnil
        rw [encryptLoopF_nil_any]
        rw [show pieces ([] : List Nat) [] = [] from by simp [pieces, dataPieces_unfold]]
        rfl
      · have hctr32 : ctr < 2 ^ 32 := by
          have : 0 < (pieces [] input).length := by
            simp only [pieces, List.nil_append]
            rw [dataPieces_unfold, if_neg hinnil]
            simp
          omega
        have hnonce := nonceOf_varint ctr buf rand hbuf hctr32 hJ
        have hcount : (pieces [] input).length =
            (dataPieces (input.drop ChunkSize)).length + 1 := by
          simp only [pieces, List.nil_append]
          rw [dataPieces_unfold, if_neg hinnil]
          simp
        rw [encryptLoopF_step_data key rand fuel ctr buf input hinnil]
        by_cases hrest : dataPieces (input.drop ChunkSize) = []
        · have hdropnil : input.drop ChunkSize = [] := dataPieces_eq_nil hrest
          rw [hdropnil, encryptLoopF_nil_any]
          simp only [Except.map]
          rw [hcount, nonceList_succ]
          rw [show pieces ([] : List Nat) input = (chunkTypeData, input.take ChunkSize) ::
            dataPieces (input.drop ChunkSize) from by
              simp only [pieces, List.nil_append]
              rw [dataPieces_unfold, if_neg hinnil]
              simp]
          rw [hrest]
          simp [chunkStreamN, nonceList, nonceAt, hnonce]
        · have hrestpos : 0 < (dataPieces (input.drop ChunkSize)).length :=
            List.length_pos.mpr hrest
          have hctr1 : ctr + 1 < 2 ^ 32 := by
            rw [hcount] at hwrap
            omega
          have hJ' : ∀ i, (uvarintEnc (ctr + 1)).length ≤ i → i < maxVarintLen32 →
              (nonceOf ctr buf rand).getD i 0 = 0 := by
            intro i hi1 hi5
            rw [hnonce]
            have hmono : (uvarintEnc ctr).length ≤ (uvarintEnc (ctr + 1)).length :=
              uvarintEnc_length_mono (by omega)
            have hv5len : (varint5 ctr).length = 5 := varint5_length ctr hctr32
            rw [List.getD_append _ _ _ _ (by
              rw [hv5len]
              simpa [maxVarintLen32] using hi5)]
            rw [varint5_eq ctr hctr32]
            rw [List.getD_append_right _ _ _ _ (by omega)]
            exact getD_replicate_zero _ _
          have := ih [] (input.drop ChunkSize) (ctr + 1) (nonceOf ctr buf rand) key rand
            (by simp only [List.length_nil, List.length_drop, Nat.zero_add]
                have := List.length_pos.mpr hinnil
                omega)
            (nonceOf_length ctr buf rand hbuf)
            (by rw [show (pieces [] (input.drop ChunkSize)).length =
                  (dataPieces (input.drop ChunkSize)).length from by simp [pieces]]
                rw [hcount] at hwrap
                omega) hJ'
          rw [show ((ctr + 1) % 2 ^ 32) = ctr + 1 from Nat.mod_eq_of_lt hctr1, this]
          simp only [Except.map]
          rw [hcount, nonceList_succ]
          rw [show pieces ([] : List Nat) input = (chunkTypeData, input.take ChunkSize) ::
            dataPieces (input.drop ChunkSize) from by
              simp only [pieces, List.nil_append]
              rw [dataPieces_unfold, if_neg hinnil]
              simp]
          rw [show pieces ([] : List Nat) (input.drop ChunkSize) =
            dataPieces (input.drop ChunkSize) from by simp [pieces]]
          rw [chunkStreamN_cons, hnonce]
          simp [nonceAt, List.append_assoc]

/-- `Encrypt` with its precise nonces: when fewer than `2^32` chunks are
sealed the stream is `chunkStreamN` over the counter-derived nonce list,
followed by the tomb. -/
theorem Encrypt_chunks_nonces (P key M : List Nat) (rand : Nat → List Nat) (randTomb : List Nat)
    (hM : M.length ≤ ChunkSize) (hcount : (pieces M P).length + 1 ≤ 2 ^ 32) :
    Encrypt P key M rand randTomb =
      .ok (chunkStreamN key (nonceList rand 1 (pieces M P).length) (pieces M P) ++
        tombChunkBytes (padTo gcmNonceSize randTomb)) := by
  have h := encryptLoopF_nonces (M.length + P.length + 1) M P 1
    (List.replicate gcmNonceSize 0) key rand (by omega) (by simp) (by omega)
    (fun i _ _ => getD_replicate_zero _ _)
  rw [Encrypt, if_neg (by omega)]
  simp only [getGCM, getAES256GCM, if_pos rfl, if_true]
  rw [h]
  rw [writeChunkHeader_valid chunkTypeTomb schemeAES256GCM (padTo gcmNonceSize randTomb) 0
    rfl rfl]
  rfl

/-- C10: within one `Encrypt` invocation (fewer than `2^32` chunks, so the
`uint32` counter does not wrap), the sealed chunks use the nonces
`nonceList rand 1 count`: chunk `j`'s nonce opens with the 5-byte varint
region encoding the 1-based counter value `1 + j`, incrementing by one per
sealed chunk; hence any two distinct data or extra-metadata chunks of one
stream are sealed with distinct nonces, regardless of the random bytes in
the remainder of the nonce. -/
theorem c10_nonce_counter (P key M : List Nat) (rand : Nat → List Nat) (randTomb : List Nat)
    (hM : M.length ≤ ChunkSize) (hcount : (pieces M P).length + 1 ≤ 2 ^ 32) :
    Encrypt P key M rand randTomb =
      .ok (chunkStreamN key (nonceList rand 1 (pieces M P).length) (pieces M P) ++
        tombChunkBytes (padTo gcmNonceSize randTomb)) ∧
    (∀ j, j < (pieces M P).length →
      (nonceAt rand 1 j).take maxVarintLen32 = varint5 (1 + j)) ∧
    (∀ i j, i < (pieces M P).length → j < (pieces M P).length → i ≠ j →
      nonceAt rand 1 i ≠ nonceAt rand 1 j) := by
  refine ⟨Encrypt_chunks_nonces P key M rand randTomb hM hcount, ?_, ?_⟩
  · intro j hj
    rw [nonceAt]
    exact List.take_left' (varint5_length _ (by omega))
  · intro i j hi hj hne heq
    have h1 : varint5 (1 + i) = varint5 (1 + j) := by
      have h2 := congrArg (List.take maxVarintLen32) heq
      rw [nonceAt, nonceAt] at h2
      simp only [maxVarintLen32] at h2
      rw [List.take_left' (varint5_length (1 + i) (by omega)),
        List.take_left' (varint5_length (1 + j) (by omega))] at h2
      exact h2
    have := varint5_injOn (1 + i) (1 + j) (by omega) (by omega) h1
    omega

/-- witness for C10 at concrete inputs. -/
theorem c10_nonce_counter_witness :
    (([66] : List Nat).length ≤ ChunkSize ∧ (pieces [66] [65]).length + 1 ≤ 2 ^ 32) ∧
    (Encrypt [65] [107] [66] (fun _ => [3]) [9] =
      .ok (chunkStreamN [107] (nonceList (fun _ => [3]) 1 (pieces [66] [65]).length)
          (pieces [66] [65]) ++
        tombChunkBytes (padTo gcmNonceSize [9])) ∧
    (∀ j, j < (pieces [66] [65]).length →
      (nonceAt (fun _ => [3]) 1 j).take maxVarintLen32 = varint5 (1 + j)) ∧
    (∀ i j, i < (pieces [66] [65]).length → j < (pieces [66] [65]).length → i ≠ j →
      nonceAt (fun _ => [3]) 1 i ≠ nonceAt (fun _ => [3]) 1 j)) :=
  ⟨⟨by norm_num [ChunkSize], by norm_num [pieces, dataPieces, dataPiecesF, ChunkSize]⟩,
    c10_nonce_counter [65] [107] [66] (fun _ => [3]) [9] (by norm_num [ChunkSize])
      (by norm_num [pieces, dataPieces, dataPiecesF, ChunkSize])⟩

/-! ### Claim C5 -/

theorem set_take_of_le (l : List Nat) (i n v : Nat) (h : n ≤ i) :
    (l.set i v).take n = l.take n := by
  apply List.ext_getElem?
  intro m
  rw [List.getElem?_take, List.getElem?_take]
  by_cases hm : m < n
  · simp [hm, List.getElem?_set, show i ≠ m by omega]
  · simp [hm]

theorem set_getD_self (l : List Nat) (i v : Nat) (h : i < l.length) :
    (l.set i v).getD i 0 = v := by
  simp [List.getD, List.getElem?_set, h]

theorem replicate_overhead_inj {x y : Nat}
    (h : List.replicate gcmOverhead x = List.replicate gcmOverhead y) : x = y := by
  have h2 := congrArg (fun l : List Nat => l.getD 0 0) h
  simpa [List.getD, gcmOverhead] using h2

/-- two ideal-AEAD sealed values coincide only when key, nonce, plaintext and
AAD all coincide. -/
theorem gcmSeal_inj {k n p a k' n' p' a' : List Nat}
    (h : gcmSeal k n p a = gcmSeal k' n' p' a') : k = k' ∧ n = n' ∧ p = p' ∧ a = a' := by
  have hlen : p.length = p'.length := by
    have h2 := congrArg List.length h
    simp only [gcmSeal, List.length_append, List.length_replicate] at h2
    omega
  obtain ⟨hp, ht⟩ := List.append_inj h hlen
  obtain ⟨hk, hn, _, ha⟩ := tagOf_inj (replicate_overhead_inj ht)
  exact ⟨hk, hn, hp, ha⟩

/-- opening a sealed value under a different key fails authentication. -/
theorem gcmOpen_wrong_key (key key' nonce p aad : List Nat) (hk : key' ≠ key) :
    gcmOpen key' nonce (gcmSeal key nonce p aad) aad = none := by
  rcases hopen : gcmOpen key' nonce (gcmSeal key nonce p aad) aad with _ | q
  · rfl
  · exact absurd ((gcmSeal_inj (gcmOpen_eq_some hopen)).1).symm hk

/-- replacing any byte of a sealed value by a different value breaks
authentication under the sealing key, nonce and AAD. -/
theorem gcmOpen_set_seal (key nonce p aad : List Nat) (i v : Nat)
    (hi : i < p.length + gcmOverhead)
    (hv : v ≠ (gcmSeal key nonce p aad).getD i 0) :
    gcmOpen key nonce ((gcmSeal key nonce p aad).set i v) aad = none := by
  rcases hopen : gcmOpen key nonce ((gcmSeal key nonce p aad).set i v) aad with _ | q
  · rfl
  exfalso
  have hset := gcmOpen_eq_some hopen
  have hclen : (gcmSeal key nonce p aad).length = p.length + gcmOverhead :=
    gcmSeal_length key nonce p aad
  have hqlen : q.length = p.length := by
    have h2 := congrArg List.length hset
    rw [List.length_set, hclen, gcmSeal_length] at h2
    omega
  have hqp : q = p := by
    by_cases hip : i < p.length
    · have hd : ((gcmSeal key nonce p aad).set i v).drop p.length =
          List.replicate gcmOverhead (tagOf key nonce p aad) := by
        rw [List.drop_set_of_lt _ _ hip]
        simp only [gcmSeal]
        exact List.drop_left' rfl
      have hd2 : (gcmSeal key nonce q aad).drop p.length =
          List.replicate gcmOverhead (tagOf key nonce q aad) := by
        rw [← hqlen]
        simp only [gcmSeal]
        exact List.drop_left' rfl
      rw [hset, hd2] at hd
      exact (tagOf_inj (replicate_overhead_inj hd)).2.2.1
    · push_neg at hip
      have ht : ((gcmSeal key nonce p aad).set i v).take p.length = p := by
        rw [set_take_of_le _ _ _ _ hip]
        simp only [gcmSeal]
        exact List.take_left' rfl
      have ht2 : (gcmSeal key nonce q aad).take p.length = q := by
        rw [← hqlen]
        simp only [gcmSeal]
        exact List.take_left' rfl
      rw [hset, ht2] at ht
      exact ht
  apply hv
  have h3 := congrArg (fun l : List Nat => l.getD i 0) hset
  rw [hqp] at h3
  simp only at h3
  rw [set_getD_self _ _ _ (by rw [hclen]; exact hi)] at h3
  exact h3

/-- a well-framed chunk whose ciphertext fails to authenticate makes the
loop halt with the `Open` authentication error, writing nothing further. -/
theorem decryptLoop_chunk_authfail (skey gk : List Nat) (ct : Nat)
    (nonce c rest out extra : List Nat)
    (hct : ct = chunkTypeData ∨ ct = chunkTypeExtra)
    (hn : nonce.length < 256)
    (hc0 : ¬ c.length = 0) (hcb : c.length ≤ maxChunkSizeSanity)
    (hopen : gcmOpen gk nonce c [] = none) :
    decryptLoop skey gk schemeAES256GCM
      (chunkHeaderBytes ct schemeAES256GCM nonce (c.length % 2 ^ 32) ++ (c ++ rest)) out extra =
      (some .authFailed, out, extra) := by
  have hsan : maxChunkSizeSanity < 2 ^ 32 := by
    norm_num [maxChunkSizeSanity, maxChunkSizeD, ChunkSize, gcmOverhead]
  have hds32 : c.length < 2 ^ 32 := by omega
  have hmod : c.length % 2 ^ 32 = c.length := Nat.mod_eq_of_lt hds32
  have hct' : checkChunkType ct = true := by
    rcases hct with rfl | rfl <;> decide
  have hctne : ct ≠ chunkTypeTomb := by
    rcases hct with rfl | rfl <;> decide
  have hparse := readChunkHeader_wf ct schemeAES256GCM nonce c.length
    maxChunkSizeSanity (c ++ rest) hct' (by decide) hn hds32
    (by rw [Nat.mod_eq_of_lt hsan]; exact hcb)
  have hlen1 : ¬ ((c ++ rest).length < c.length) := by simp
  have htake : (c ++ rest).take c.length = c := List.take_left' rfl
  rw [hmod, decryptLoop, decryptLoopF.eq_2]
  simp only [hparse, Option.isSome_none, Bool.false_eq_true, false_and, if_false,
    if_neg hctne, if_neg (by decide : ¬ (schemeAES256GCM ≠ schemeAES256GCM)),
    if_neg hc0, if_neg hlen1, htake, hopen]

theorem nonceList_length (rand : Nat → List Nat) (ctr m : Nat) :
    (nonceList rand ctr m).length = m := by
  simp [nonceList]

theorem nonceList_mem_length (rand : Nat → List Nat) (ctr m : Nat) (hm : ctr + m ≤ 2 ^ 32) :
    ∀ nn ∈ nonceList rand ctr m, nn.length = gcmNonceSize := by
  intro nn hnn
  simp only [nonceList, List.mem_map, List.mem_range] at hnn
  obtain ⟨jj, hjj, rfl⟩ := hnn
  rw [nonceAt, List.length_append, varint5_length _ (by omega), padTo_length]
  norm_num [gcmNonceSize, maxVarintLen32]

/-- running the loop on a stream whose chunk `j` has ciphertext byte `i`
replaced by a different value: chunks before `j` decrypt and are routed,
then the loop halts with the authentication error at chunk `j`. -/
theorem decryptLoop_runT : ∀ (ps : List (Nat × List Nat)) (j : Nat) (ns : List (List Nat))
    (key tn junk out extra : List Nat) (i v : Nat),
    ns.length = ps.length → (∀ nn ∈ ns, nn.length = gcmNonceSize) →
    (∀ pr ∈ ps, (pr.1 = chunkTypeData ∨ pr.1 = chunkTypeExtra) ∧ pr.2.length ≤ ChunkSize) →
    j < ps.length →
    i < (ps.getD j (0, [])).2.length + gcmOverhead →
    v ≠ (gcmSeal key (ns.getD j []) (ps.getD j (0, [])).2 []).getD i 0 →
    decryptLoop key key schemeAES256GCM
      (chunkStreamNT key i v j ns ps ++ (tombChunkBytes tn ++ junk)) out extra =
      (some .authFailed, out ++ piecesOut (ps.take j), extra ++ piecesExtra (ps.take j)) := by
  intro ps
  induction ps with
  | nil =>
    intro j ns key tn junk out extra i v hlen hns hps hj hi hv
    simp at hj
  | cons pr ps ih =>
    intro j ns key tn junk out extra i v hlen hns hps hj hi hv
    rcases ns with _ | ⟨nn, ns⟩
    · simp at hlen
    rcases pr with ⟨ct, p⟩
    have hshape := hps (ct, p) (List.mem_cons_self _ _)
    have hnn : nn.length = gcmNonceSize := hns nn (List.mem_cons_self _ _)
    have hnn256 : nn.length < 256 := by rw [hnn]; norm_num [gcmNonceSize]
    have hpbound : p.length + gcmOverhead ≤ maxChunkSizeSanity := by
      have := hshape.2
      simp only [maxChunkSizeSanity, maxChunkSizeD, ChunkSize, gcmOverhead] at *
      omega
    rcases j with _ | jj
    · simp only [List.getD_cons_zero] at hi hv
      have hset_len : ((gcmSeal key nn p []).set i v).length = p.length + gcmOverhead := by
        rw [List.length_set, gcmSeal_length]
      have hopen : gcmOpen key nn ((gcmSeal key nn p []).set i v) [] = none :=
        gcmOpen_set_seal key nn p [] i v hi hv
      have hunf : chunkStreamNT key i v 0 (nn :: ns) ((ct, p) :: ps) =
          chunkHeaderBytes ct schemeAES256GCM nn
              (((gcmSeal key nn p []).set i v).length % 2 ^ 32) ++
            ((gcmSeal key nn p []).set i v ++ chunkStreamN key ns ps) := by
        rw [hset_len]
        simp [chunkStreamNT, List.append_assoc]
      rw [hunf]
      simp only [List.append_assoc]
      rw [decryptLoop_chunk_authfail key key ct nn ((gcmSeal key nn p []).set i v)
        (chunkStreamN key ns ps ++ (tombChunkBytes tn ++ junk)) out extra hshape.1 hnn256
        (by rw [hset_len]; simp [gcmOverhead]) (by rw [hset_len]; exact hpbound) hopen]
      simp [piecesOut, piecesExtra]
    · simp only [List.getD_cons_succ] at hi hv
      have hunf : chunkStreamNT key i v (jj + 1) (nn :: ns) ((ct, p) :: ps) =
          chunkHeaderBytes ct schemeAES256GCM nn ((p.length + gcmOverhead) % 2 ^ 32) ++
            (gcmSeal key nn p [] ++ chunkStreamNT key i v jj ns ps) := by
        simp [chunkStreamNT, List.append_assoc]
      rw [hunf]
      simp only [List.append_assoc]
      rw [decryptLoop_chunk_step key key ct nn p
        (chunkStreamNT key i v jj ns ps ++ (tombChunkBytes tn ++ junk)) out extra
        hshape.1 hnn256 hpbound]
      rw [ih jj ns key tn junk _ _ i v (by simpa using hlen)
        (fun x hx => hns x (List.mem_cons_of_mem _ hx))
        (fun x hx => hps x (List.mem_cons_of_mem _ hx)) (by simpa using hj) hi hv]
      simp only [List.take_succ_cons, piecesOut, piecesExtra, List.map_cons,
        List.flatten_cons, List.append_assoc]

/-- under a wrong key, the loop halts with the authentication error at the
very first chunk, with nothing written. -/
theorem decryptLoop_wrong_key_head (key key' : List Nat) (hk : key' ≠ key)
    (ns : List (List Nat)) (ps : List (Nat × List Nat)) (rest out extra : List Nat)
    (hlen : ns.length = ps.length) (hns : ∀ nn ∈ ns, nn.length = gcmNonceSize)
    (hps : ∀ pr ∈ ps, (pr.1 = chunkTypeData ∨ pr.1 = chunkTypeExtra) ∧ pr.2.length ≤ ChunkSize)
    (hne : ps ≠ []) :
    decryptLoop key' key' schemeAES256GCM (chunkStreamN key ns ps ++ rest) out extra =
      (some .authFailed, out, extra) := by
  rcases ps with _ | ⟨⟨ct, p⟩, ps⟩
  · exact absurd rfl hne
  rcases ns with _ | ⟨nn, ns⟩
  · simp at hlen
  have hshape := hps (ct, p) (List.mem_cons_self _ _)
  have hnn : nn.length = gcmNonceSize := hns nn (List.mem_cons_self _ _)
  have hpbound : p.length + gcmOverhead ≤ maxChunkSizeSanity := by
    have := hshape.2
    simp only [maxChunkSizeSanity, maxChunkSizeD, ChunkSize, gcmOverhead] at *
    omega
  rw [chunkStreamN_cons]
  simp only [List.append_assoc]
  rw [show (p.length + gcmOverhead) % 2 ^ 32 = (gcmSeal key nn p []).length % 2 ^ 32 from by
    rw [gcmSeal_length]]
  rw [decryptLoop_chunk_authfail key' key' ct nn (gcmSeal key nn p [])
    (chunkStreamN key ns ps ++ rest) out extra hshape.1 (by rw [hnn]; norm_num [gcmNonceSize])
    (by rw [gcmSeal_length]; simp [gcmOverhead]) (by rw [gcmSeal_length]; exact hpbound)
    (gcmOpen_wrong_key key key' nn p [] hk)]

/-- C5: over the ideal-AEAD model, for any stream `Encrypt` produces (fewer
than `2^32` chunks): replacing ciphertext byte `i` of chunk `j` by any
different value makes decryption fail with the authentication error, its
output being exactly the plaintext routed from the chunks before `j` — the
altered chunk contributes nothing; and decrypting the unaltered stream under
any key other than the encryption key fails with the authentication error at
the first chunk, with no plaintext emitted. -/
theorem c5_tamper_wrong_key (P key key' M : List Nat) (rand : Nat → List Nat)
    (randTomb : List Nat) (j i v : Nat)
    (hM : M.length ≤ ChunkSize) (hcount : (pieces M P).length + 1 ≤ 2 ^ 32)
    (hj : j < (pieces M P).length)
    (hi : i < ((pieces M P).getD j (0, [])).2.length + gcmOverhead)
    (hv : v ≠ (gcmSeal key ((nonceList rand 1 (pieces M P).length).getD j [])
      ((pieces M P).getD j (0, [])).2 []).getD i 0)
    (hk : key' ≠ key) :
    Encrypt P key M rand randTomb =
      .ok (chunkStreamN key (nonceList rand 1 (pieces M P).length) (pieces M P) ++
        tombChunkBytes (padTo gcmNonceSize randTomb)) ∧
    Decrypt (chunkStreamNT key i v j (nonceList rand 1 (pieces M P).length) (pieces M P) ++
        tombChunkBytes (padTo gcmNonceSize randTomb)) key =
      (some .authFailed, piecesOut ((pieces M P).take j), piecesExtra ((pieces M P).take j)) ∧
    Decrypt (chunkStreamN key (nonceList rand 1 (pieces M P).length) (pieces M P) ++
        tombChunkBytes (padTo gcmNonceSize randTomb)) key' =
      (some .authFailed, [], []) := by
  have hlen := nonceList_length rand 1 (pieces M P).length
  have hns := nonceList_mem_length rand 1 (pieces M P).length (by omega)
  have hsh := pieces_shape M P hM
  have htn : (padTo gcmNonceSize randTomb).length < 256 := by
    rw [padTo_length]
    norm_num [gcmNonceSize]
  refine ⟨Encrypt_chunks_nonces P key M rand randTomb hM hcount, ?_, ?_⟩
  · rw [Decrypt]
    simp only [getGCM, getAES256GCM, if_pos rfl, if_true]
    rw [show tombChunkBytes (padTo gcmNonceSize randTomb) =
      tombChunkBytes (padTo gcmNonceSize randTomb) ++ [] from by simp]
    rw [decryptLoop_runT (pieces M P) j (nonceList rand 1 (pieces M P).length) key
      (padTo gcmNonceSize randTomb) [] [] [] i v hlen hns hsh hj hi hv]
    simp
  · rw [Decrypt]
    simp only [getGCM, getAES256GCM, if_pos rfl, if_true]
    rw [decryptLoop_wrong_key_head key key' hk (nonceList rand 1 (pieces M P).length)
      (pieces M P) (tombChunkBytes (padTo gcmNonceSize randTomb)) [] [] hlen hns hsh
      (by intro h; rw [h] at hj; simp at hj)]

set_option maxRecDepth 100000 in
/-- witness for C5 at concrete inputs. -/
theorem c5_tamper_wrong_key_witness :
    (([] : List Nat).length ≤ ChunkSize ∧ (pieces [] [65]).length + 1 ≤ 2 ^ 32 ∧
      0 < (pieces [] [65]).length ∧
      0 < ((pieces [] [65]).getD 0 (0, [])).2.length + gcmOverhead ∧
      66 ≠ (gcmSeal [107] ((nonceList (fun _ => []) 1 (pieces [] [65]).length).getD 0 [])
        ((pieces [] [65]).getD 0 (0, [])).2 []).getD 0 0 ∧
      ([108] : List Nat) ≠ [107]) ∧
    (Encrypt [65] [107] [] (fun _ => []) [] =
      .ok (chunkStreamN [107] (nonceList (fun _ => []) 1 (pieces [] [65]).length)
          (pieces [] [65]) ++
        tombChunkBytes (padTo gcmNonceSize [])) ∧
    Decrypt (chunkStreamNT [107] 0 66 0 (nonceList (fun _ => []) 1 (pieces [] [65]).length)
        (pieces [] [65]) ++
      tombChunkBytes (padTo gcmNonceSize [])) [107] =
      (some .authFailed, piecesOut ((pieces [] [65]).take 0),
        piecesExtra ((pieces [] [65]).take 0)) ∧
    Decrypt (chunkStreamN [107] (nonceList (fun _ => []) 1 (pieces [] [65]).length)
        (pieces [] [65]) ++
      tombChunkBytes (padTo gcmNonceSize [])) [108] =
      (some .authFailed, [], [])) :=
  ⟨⟨by norm_num [ChunkSize], by norm_num [pieces, dataPieces, dataPiecesF, ChunkSize],
    by norm_num [pieces, dataPieces, dataPiecesF, ChunkSize],
    by norm_num [gcmOverhead], by decide, by decide⟩,
    c5_tamper_wrong_key [65] [107] [108] [] (fun _ => []) [] 0 0 66
      (by norm_num [ChunkSize]) (by norm_num [pieces, dataPieces, dataPiecesF, ChunkSize])
      (by norm_num [pieces, dataPieces, dataPiecesF, ChunkSize]) (by norm_num [gcmOverhead])
      (by decide) (by decide)⟩

/-! ### Claim C9 -/

/-- the `Decrypt` loop's routing is decided by the parsed chunk-kind byte
alone: whenever `readChunkHeader` reports kind = terminator, the loop
returns success immediately — even when the parse also reported an error. -/
theorem decryptLoop_of_parse_tomb (skey gk : List Nat) (st : Nat) (s out extra : List Nat)
    (h : (readChunkHeader s maxChunkSizeSanity).1.ct = chunkTypeTomb) :
    decryptLoop skey gk st s out extra = (none, out, extra) := by
  rw [decryptLoop_unfold]
  rcases hrc : readChunkHeader s maxChunkSizeSanity with ⟨ch, err?, s1⟩
  rw [hrc] at h
  simp only at h
  simp [h]

theorem exists_twelve (l : List Nat) (hl : l.length = gcmNonceSize) :
    ∃ a0 a1 a2 a3 a4 a5 a6 a7 a8 a9 a10 a11,
      l = [a0, a1, a2, a3, a4, a5, a6, a7, a8, a9, a10, a11] := by
  rcases l with _ | ⟨a0, l⟩
  · simp [gcmNonceSize] at hl
  rcases l with _ | ⟨a1, l⟩
  · simp [gcmNonceSize] at hl
  rcases l with _ | ⟨a2, l⟩
  · simp [gcmNonceSize] at hl
  rcases l with _ | ⟨a3, l⟩
  · simp [gcmNonceSize] at hl
  rcases l with _ | ⟨a4, l⟩
  · simp [gcmNonceSize] at hl
  rcases l with _ | ⟨a5, l⟩
  · simp [gcmNonceSize] at hl
  rcases l with _ | ⟨a6, l⟩
  · simp [gcmNonceSize] at hl
  rcases l with _ | ⟨a7, l⟩
  · simp [gcmNonceSize] at hl
  rcases l with _ | ⟨a8, l⟩
  · simp [gcmNonceSize] at hl
  rcases l with _ | ⟨a9, l⟩
  · simp [gcmNonceSize] at hl
  rcases l with _ | ⟨a10, l⟩
  · simp [gcmNonceSize] at hl
  rcases l with _ | ⟨a11, l⟩
  · simp [gcmNonceSize] at hl
  rcases l with _ | ⟨a12, l⟩
  · exact ⟨a0, a1, a2, a3, a4, a5, a6, a7, a8, a9, a10, a11, rfl⟩
  · simp [gcmNonceSize] at hl

/-- truncating a terminator chunk anywhere after its chunk-kind byte
(`3 ≤ k < 22`): the kind byte still parses as terminator, so the loop ends
successfully; for `k < 18` the header parse also reported an error
(truncated nonce or missing size field) that is thereby swallowed. -/
theorem decryptLoop_tomb_trunc (skey gk : List Nat) (st : Nat) (nonce out extra : List Nat)
    (k : Nat) (hn : nonce.length = gcmNonceSize) (hk3 : 3 ≤ k) (hk22 : k < 22) :
    decryptLoop skey gk st ((tombChunkBytes nonce).take k) out extra = (none, out, extra) ∧
    (readChunkHeader ((tombChunkBytes nonce).take k) maxChunkSizeSanity).1.ct =
      chunkTypeTomb ∧
    (k < 18 →
      (readChunkHeader ((tombChunkBytes nonce).take k) maxChunkSizeSanity).2.1.isSome =
        true) := by
  obtain ⟨a0, a1, a2, a3, a4, a5, a6, a7, a8, a9, a10, a11, rfl⟩ := exists_twelve nonce hn
  interval_cases k <;>
    exact ⟨decryptLoop_of_parse_tomb skey gk st _ out extra rfl, rfl,
      fun hk => by first | rfl | exact absurd hk (by norm_num)⟩

/-- running the loop over well-formed sealed chunks followed by any tail on
which the loop ends cleanly. -/
theorem decryptLoop_run_tail : ∀ (ps : List (Nat × List Nat)) (ns : List (List Nat))
    (key T out extra : List Nat),
    ns.length = ps.length → (∀ nn ∈ ns, nn.length = gcmNonceSize) →
    (∀ pr ∈ ps, (pr.1 = chunkTypeData ∨ pr.1 = chunkTypeExtra) ∧ pr.2.length ≤ ChunkSize) →
    (∀ out' extra' : List Nat,
      decryptLoop key key schemeAES256GCM T out' extra' = (none, out', extra')) →
    decryptLoop key key schemeAES256GCM (chunkStreamN key ns ps ++ T) out extra =
      (none, out ++ piecesOut ps, extra ++ piecesExtra ps) := by
  intro ps
  induction ps with
  | nil =>
    intro ns key T out extra hlen hns hps htail
    have hnsnil : ns = [] := List.eq_nil_of_length_eq_zero (by simpa using hlen)
    subst hnsnil
    rw [show chunkStreamN key [] [] = [] from rfl, List.nil_append, htail out extra]
    simp [piecesOut, piecesExtra]
  | cons pr ps ih =>
    intro ns key T out extra hlen hns hps htail
    rcases ns with _ | ⟨nn, ns⟩
    · simp at hlen
    rcases pr with ⟨ct, p⟩
    have hshape := hps (ct, p) (List.mem_cons_self _ _)
    have hnn : nn.length = gcmNonceSize := hns nn (List.mem_cons_self _ _)
    have hnn256 : nn.length < 256 := by
      rw [hnn]
      norm_num [gcmNonceSize]
    have hpbound : p.length + gcmOverhead ≤ maxChunkSizeSanity := by
      have := hshape.2
      simp only [maxChunkSizeSanity, maxChunkSizeD, ChunkSize, gcmOverhead] at *
      omega
    rw [chunkStreamN_cons]
    simp only [List.append_assoc]
    rw [decryptLoop_chunk_step key key ct nn p
      (chunkStreamN key ns ps ++ T) out extra hshape.1 hnn256 hpbound]
    rw [ih ns key T _ _ (by simpa using hlen)
      (fun x hx => hns x (List.mem_cons_of_mem _ hx))
      (fun x hx => hps x (List.mem_cons_of_mem _ hx)) htail]
    simp only [piecesOut, piecesExtra, List.map_cons, List.flatten_cons, List.append_assoc]

/-- C9: any stream `Encrypt` produces ends in a 22-byte terminator chunk;
cutting that terminator anywhere after its chunk-kind byte (keeping `k` of
its bytes, `3 ≤ k < 22`) leaves a stream whose final header still parses
with kind = terminator — for `k < 18` with a parse error from the truncated
nonce/size fields — and `Decrypt` nevertheless reports success with the full
plaintext and accumulated extra metadata, the parse error being swallowed by
the terminator routing. -/
theorem c9_truncated_terminator (P key M : List Nat) (rand : Nat → List Nat)
    (randTomb : List Nat) (k : Nat)
    (hM : M.length ≤ ChunkSize) (hk3 : 3 ≤ k) (hk22 : k < 22) :
    ∃ body tomb : List Nat,
      Encrypt P key M rand randTomb = .ok (body ++ tomb) ∧
      tomb.length = 22 ∧
      (readChunkHeader (tomb.take k) maxChunkSizeSanity).1.ct = chunkTypeTomb ∧
      (k < 18 → (readChunkHeader (tomb.take k) maxChunkSizeSanity).2.1.isSome = true) ∧
      Decrypt (body ++ tomb.take k) key = (none, P, M) := by
  obtain ⟨ns, h1, h2, h3⟩ := Encrypt_chunks P key M rand randTomb hM
  have hpt : (padTo gcmNonceSize randTomb).length = gcmNonceSize :=
    padTo_length gcmNonceSize randTomb
  have htr := decryptLoop_tomb_trunc key key schemeAES256GCM
    (padTo gcmNonceSize randTomb) [] [] k hpt hk3 hk22
  refine ⟨chunkStreamN key ns (pieces M P),
    tombChunkBytes (padTo gcmNonceSize randTomb), h3, ?_, htr.2.1, htr.2.2, ?_⟩
  · simp [tombChunkBytes, chunkHeaderBytes, padTo_length, gcmNonceSize,
      varint5_length 0 (by norm_num)]
  · rw [Decrypt]
    simp only [getGCM, getAES256GCM, if_pos rfl, if_true]
    rw [decryptLoop_run_tail (pieces M P) ns key
      ((tombChunkBytes (padTo gcmNonceSize randTomb)).take k) [] [] h1 h2
      (pieces_shape M P hM)
      (fun out' extra' => (decryptLoop_tomb_trunc key key schemeAES256GCM
        (padTo gcmNonceSize randTomb) out' extra' k hpt hk3 hk22).1)]
    rw [piecesOut_pieces, piecesExtra_pieces M P hM]
    simp

/-- witness for C9 at concrete inputs. -/
theorem c9_truncated_terminator_witness :
    (([66] : List Nat).length ≤ ChunkSize ∧ 3 ≤ 5 ∧ 5 < 22) ∧
    (∃ body tomb : List Nat,
      Encrypt [65] [107] [66] (fun _ => []) [] = .ok (body ++ tomb) ∧
      tomb.length = 22 ∧
      (readChunkHeader (tomb.take 5) maxChunkSizeSanity).1.ct = chunkTypeTomb ∧
      (5 < 18 → (readChunkHeader (tomb.take 5) maxChunkSizeSanity).2.1.isSome = true) ∧
      Decrypt (body ++ tomb.take 5) [107] = (none, [65], [66])) :=
  ⟨⟨by norm_num [ChunkSize], by norm_num, by norm_num⟩,
    c9_truncated_terminator [65] [107] [66] (fun _ => []) [] 5
      (by norm_num [ChunkSize]) (by norm_num) (by norm_num)⟩

/-! ### Claim C4 -/

theorem dataPieces_pos : ∀ (n : Nat) (l : List Nat), l.length ≤ n →
    ∀ pr ∈ dataPieces l, 0 < pr.2.length := by
  intro n
  induction n with
  | zero =>
    intro l hl pr hpr
    have : l = [] := List.eq_nil_of_length_eq_zero (by omega)
    subst this
    rw [dataPieces_unfold] at hpr
    simp at hpr
  | succ n ih =>
    intro l hl pr hpr
    rw [dataPieces_unfold] at hpr
    by_cases hnil : l = []
    · simp [hnil] at hpr
    · rw [if_neg hnil] at hpr
      rcases List.mem_cons.mp hpr with rfl | hmem
      · show 0 < (l.take ChunkSize).length
        have h1 := List.length_pos.mpr hnil
        have h2 := ChunkSize_pos
        rw [List.length_take]
        omega
      · have hpos : 0 < l.length := List.length_pos.mpr hnil
        have hcs := ChunkSize_pos
        exact ih (l.drop ChunkSize) (by rw [List.length_drop]; omega) pr hmem

theorem pieces_pos (extra input : List Nat) : ∀ pr ∈ pieces extra input, 0 < pr.2.length := by
  intro pr hpr
  rw [pieces] at hpr
  rcases List.mem_append.mp hpr with hmem | hmem
  · by_cases hnil : extra = []
    · simp [hnil] at hmem
    · rw [if_neg hnil] at hmem
      rcases List.mem_singleton.mp hmem with rfl
      show 0 < (extra.take ChunkSize).length
      have h1 := List.length_pos.mpr hnil
      have h2 := ChunkSize_pos
      rw [List.length_take]
      omega
  · exact dataPieces_pos input.length input le_rfl pr hmem

theorem chunkHeaderBytes_length (ct st : Nat) (nonce : List Nat) (ds : Nat)
    (hn : nonce.length = gcmNonceSize) (hds : ds < 2 ^ 32) :
    (chunkHeaderBytes ct st nonce ds).length = 22 := by
  simp [chunkHeaderBytes, hn, varint5_length ds hds, gcmNonceSize]

/-- a complete chunk header followed by a too-short ciphertext: the
`io.ReadFull` of the payload comes up short and the loop stops with the
end-of-stream error. -/
theorem decryptLoop_short_payload (skey gk : List Nat) (ct : Nat) (nonce s1 : List Nat)
    (ds : Nat) (out extra : List Nat)
    (hct : ct = chunkTypeData ∨ ct = chunkTypeExtra)
    (hn : nonce.length < 256) (hds0 : ¬ ds = 0) (hds : ds ≤ maxChunkSizeSanity)
    (hshort : s1.length < ds) :
    decryptLoop skey gk schemeAES256GCM (chunkHeaderBytes ct schemeAES256GCM nonce ds ++ s1)
      out extra =
      (some (if s1.isEmpty then CErr.eof else CErr.unexpectedEof), out, extra) := by
  have hsan : maxChunkSizeSanity < 2 ^ 32 := by
    norm_num [maxChunkSizeSanity, maxChunkSizeD, ChunkSize, gcmOverhead]
  have hds32 : ds < 2 ^ 32 := by omega
  have hct' : checkChunkType ct = true := by rcases hct with rfl | rfl <;> decide
  have hctne : ct ≠ chunkTypeTomb := by rcases hct with rfl | rfl <;> decide
  have hparse := readChunkHeader_wf ct schemeAES256GCM nonce ds maxChunkSizeSanity s1 hct'
    (by decide) hn hds32 (by rw [Nat.mod_eq_of_lt hsan]; exact hds)
  rw [decryptLoop, decryptLoopF.eq_2]
  simp only [hparse, Option.isSome_none, Bool.false_eq_true, false_and, if_false,
    if_neg hctne, if_neg (by decide : ¬ (schemeAES256GCM ≠ schemeAES256GCM)),
    if_neg hds0, if_pos hshort]

/-- a chunk header cut inside its 5-byte size field (at least one of its
bytes present): whatever the garbled varint yields — a parse error, an
oversized value, a zero size, or a positive size with no payload — the loop
ends with some error. -/
theorem decryptLoop_cut_sizefield (skey gk : List Nat) (ct : Nat) (nonce w : List Nat)
    (out extra : List Nat)
    (hct : ct = chunkTypeData ∨ ct = chunkTypeExtra)
    (hn : nonce.length = gcmNonceSize)
    (hw : ¬ w = []) (hwlen : w.length ≤ 4) :
    ((decryptLoop skey gk schemeAES256GCM
        (99 :: 116 :: ct :: schemeAES256GCM :: 12 :: (nonce ++ w)) out extra).1).isSome =
      true := by
  have hct' : checkChunkType ct = true := by rcases hct with rfl | rfl <;> decide
  have hctne : ct ≠ chunkTypeTomb := by rcases hct with rfl | rfl <;> decide
  have hnne : nonce ≠ [] := by
    intro h
    rw [h] at hn
    simp [gcmNonceSize] at hn
  have hn12 : nonce.length = 12 := hn
  have htk : (nonce ++ w).take 12 = nonce := List.take_left' hn12
  have hdr : (nonce ++ w).drop 12 = w := List.drop_left' hn12
  have hs7 : w.drop 5 = [] := List.drop_eq_nil_of_le (by omega)
  have hw5 : w.take 5 = w := List.take_all_of_le (by omega)
  have hrc : readChunkHeader (99 :: 116 :: ct :: schemeAES256GCM :: 12 :: (nonce ++ w))
      maxChunkSizeSanity =
      (match readUvarintFrom (padTo 5 w) with
       | none => (({ ct := ct, st := schemeAES256GCM, nonce := nonce } : chunkHeader),
           some CErr.varintEof, ([] : List Nat))
       | some val =>
         if val % 2 ^ 32 > maxChunkSizeSanity % 2 ^ 32 then
           ({ ct := ct, st := schemeAES256GCM, nonce := nonce, dataSize := val % 2 ^ 32 },
             some CErr.invalidChunkSize, ([] : List Nat))
         else
           ({ ct := ct, st := schemeAES256GCM, nonce := nonce, dataSize := val % 2 ^ 32 },
             none, ([] : List Nat))) := by
    simp only [readChunkHeader]
    rw [if_neg (by simp)]
    rw [if_neg (by simp [hct'])]
    rw [if_neg (by decide)]
    rw [if_neg (by simp [List.append_eq_nil, hnne])]
    simp only [maxVarintLen32, htk, hdr]
    rw [padTo_of_length_le _ _ hn12]
    rw [if_neg hw]
    simp only [hw5, hs7]
  rcases hval : readUvarintFrom (padTo 5 w) with _ | val
  · rw [decryptLoop_unfold, hrc, hval]
    simp [hctne]
  · have hrcS : readChunkHeader (99 :: 116 :: ct :: schemeAES256GCM :: 12 :: (nonce ++ w))
        maxChunkSizeSanity =
        (if val % 2 ^ 32 > maxChunkSizeSanity % 2 ^ 32 then
          ({ ct := ct, st := schemeAES256GCM, nonce := nonce, dataSize := val % 2 ^ 32 },
            some CErr.invalidChunkSize, ([] : List Nat))
        else
          ({ ct := ct, st := schemeAES256GCM, nonce := nonce, dataSize := val % 2 ^ 32 },
            none, ([] : List Nat))) := by
      rw [hrc, hval]
    by_cases hbig : val % 2 ^ 32 > maxChunkSizeSanity % 2 ^ 32
    · rw [if_pos hbig] at hrcS
      rw [decryptLoop_unfold, hrcS]
      simp [hctne]
    · rw [if_neg hbig] at hrcS
      rw [decryptLoop_unfold, hrcS]
      by_cases h0 : val % 2 ^ 32 = 0
      · norm_num at h0
        rcases hct with rfl | rfl <;>
          simp [h0, decryptLoop_nil, chunkTypeExtra, chunkTypeData, chunkTypeTomb]
      · have hpos : 0 < val % 2 ^ 32 := Nat.pos_of_ne_zero h0
        norm_num at h0 hpos
        rcases hct with rfl | rfl <;>
          simp [h0, hpos, chunkTypeExtra, chunkTypeData, chunkTypeTomb]

/-- a single sealed chunk cut anywhere strictly inside it (header or
payload): the loop ends with some error — at no cut offset does it
terminate cleanly. -/
theorem decryptLoop_chunk_cut (skey gk : List Nat) (ct : Nat) (nonce c : List Nat) (ds : Nat)
    (out extra : List Nat) (L : Nat)
    (hct : ct = chunkTypeData ∨ ct = chunkTypeExtra)
    (hn : nonce.length = gcmNonceSize)
    (hds0 : ¬ ds = 0) (hdsb : ds ≤ maxChunkSizeD) (hclen : c.length = ds)
    (hL : L < 22 + ds) :
    ((decryptLoop skey gk schemeAES256GCM
        ((chunkHeaderBytes ct schemeAES256GCM nonce ds ++ c).take L) out extra).1).isSome =
      true := by
  have hsan : maxChunkSizeD < 2 ^ 32 := by norm_num [maxChunkSizeD, ChunkSize, gcmOverhead]
  have hds32 : ds < 2 ^ 32 := by omega
  have hhl : (chunkHeaderBytes ct schemeAES256GCM nonce ds).length = 22 :=
    chunkHeaderBytes_length ct schemeAES256GCM nonce ds hn hds32
  rcases Nat.lt_or_ge L 18 with hL18 | hL18
  · obtain ⟨a0, a1, a2, a3, a4, a5, a6, a7, a8, a9, a10, a11, rfl⟩ := exists_twelve nonce hn
    rcases hct with rfl | rfl <;> interval_cases L <;> rfl
  · rcases Nat.lt_or_ge L 22 with hL22 | hL22
    · have hv5 : (varint5 ds).length = 5 := varint5_length ds hds32
      obtain ⟨a0, a1, a2, a3, a4, a5, a6, a7, a8, a9, a10, a11, rfl⟩ := exists_twelve nonce hn
      have hwne : ∀ m : Nat, 1 ≤ m → ¬ (varint5 ds).take m = [] := by
        intro m hm h
        have := congrArg List.length h
        rw [List.length_take, hv5] at this
        simp at this
        omega
      have hwlen : ∀ m : Nat, m ≤ 4 → ((varint5 ds).take m).length ≤ 4 := by
        intro m hm
        rw [List.length_take, hv5]
        omega
      interval_cases L
      · have hsplit : (varint5 ds ++ c).take 1 = (varint5 ds).take 1 :=
          List.take_append_of_le_length (by rw [hv5]; omega)
        rw [show (chunkHeaderBytes ct schemeAES256GCM
              [a0, a1, a2, a3, a4, a5, a6, a7, a8, a9, a10, a11] ds ++ c).take 18 =
            99 :: 116 :: ct :: schemeAES256GCM :: 12 ::
              ([a0, a1, a2, a3, a4, a5, a6, a7, a8, a9, a10, a11] ++
                (varint5 ds ++ c).take 1) from rfl]
        rw [hsplit]
        exact decryptLoop_cut_sizefield skey gk ct _ _ out extra hct rfl
          (hwne 1 (by omega)) (hwlen 1 (by omega))
      · have hsplit : (varint5 ds ++ c).take 2 = (varint5 ds).take 2 :=
          List.take_append_of_le_length (by rw [hv5]; omega)
        rw [show (chunkHeaderBytes ct schemeAES256GCM
              [a0, a1, a2, a3, a4, a5, a6, a7, a8, a9, a10, a11] ds ++ c).take 19 =
            99 :: 116 :: ct :: schemeAES256GCM :: 12 ::
              ([a0, a1, a2, a3, a4, a5, a6, a7, a8, a9, a10, a11] ++
                (varint5 ds ++ c).take 2) from rfl]
        rw [hsplit]
        exact decryptLoop_cut_sizefield skey gk ct _ _ out extra hct rfl
          (hwne 2 (by omega)) (hwlen 2 (by omega))
      · have hsplit : (varint5 ds ++ c).take 3 = (varint5 ds).take 3 :=
          List.take_append_of_le_length (by rw [hv5]; omega)
        rw [show (chunkHeaderBytes ct schemeAES256GCM
              [a0, a1, a2, a3, a4, a5, a6, a7, a8, a9, a10, a11] ds ++ c).take 20 =
            99 :: 116 :: ct :: schemeAES256GCM :: 12 ::
              ([a0, a1, a2, a3, a4, a5, a6, a7, a8, a9, a10, a11] ++
                (varint5 ds ++ c).take 3) from rfl]
        rw [hsplit]
        exact decryptLoop_cut_sizefield skey gk ct _ _ out extra hct rfl
          (hwne 3 (by omega)) (hwlen 3 (by omega))
      · have hsplit : (varint5 ds ++ c).take 4 = (varint5 ds).take 4 :=
          List.take_append_of_le_length (by rw [hv5]; omega)
        rw [show (chunkHeaderBytes ct schemeAES256GCM
              [a0, a1, a2, a3, a4, a5, a6, a7, a8, a9, a10, a11] ds ++ c).take 21 =
            99 :: 116 :: ct :: schemeAES256GCM :: 12 ::
              ([a0, a1, a2, a3, a4, a5, a6, a7, a8, a9, a10, a11] ++
                (varint5 ds ++ c).take 4) from rfl]
        rw [hsplit]
        exact decryptLoop_cut_sizefield skey gk ct _ _ out extra hct rfl
          (hwne 4 (by omega)) (hwlen 4 (by omega))
    · have htake : (chunkHeaderBytes ct schemeAES256GCM nonce ds ++ c).take L =
          chunkHeaderBytes ct schemeAES256GCM nonce ds ++ c.take (L - 22) := by
        rw [List.take_append_eq_append_take, List.take_all_of_le (by omega), hhl]
      rw [htake, decryptLoop_short_payload skey gk ct nonce (c.take (L - 22)) ds out extra hct
        (by rw [hn]; norm_num [gcmNonceSize]) hds0
        (by norm_num [maxChunkSizeSanity, maxChunkSizeD, ChunkSize, gcmOverhead] at hdsb ⊢
            omega)
        (by rw [List.length_take, hclen]; omega)]
      rfl

/-- a sequence of well-formed sealed chunks cut anywhere at or before its
end: the loop never ends cleanly — full chunks are decrypted and routed, and
the cut chunk (or the empty remainder) produces an error. -/
theorem decryptLoop_cut_run : ∀ (ps : List (Nat × List Nat)) (ns : List (List Nat))
    (key : List Nat) (L : Nat) (out extra : List Nat),
    ns.length = ps.length → (∀ nn ∈ ns, nn.length = gcmNonceSize) →
    (∀ pr ∈ ps, (pr.1 = chunkTypeData ∨ pr.1 = chunkTypeExtra) ∧ pr.2.length ≤ ChunkSize) →
    (∀ pr ∈ ps, 0 < pr.2.length) →
    L ≤ (chunkStreamN key ns ps).length →
    ((decryptLoop key key schemeAES256GCM
        ((chunkStreamN key ns ps).take L) out extra).1).isSome = true := by
  intro ps
  induction ps with
  | nil =>
    intro ns key L out extra hlen hns hps hpos hL
    have hnsnil : ns = [] := List.eq_nil_of_length_eq_zero (by simpa using hlen)
    subst hnsnil
    rw [show chunkStreamN key [] [] = [] from rfl]
    simp only [List.take_nil]
    rw [decryptLoop_nil]
    rfl
  | cons pr ps ih =>
    intro ns key L out extra hlen hns hps hpos hL
    rcases ns with _ | ⟨nn, ns⟩
    · simp at hlen
    rcases pr with ⟨ct, p⟩
    have hshape := hps (ct, p) (List.mem_cons_self _ _)
    have hppos := hpos (ct, p) (List.mem_cons_self _ _)
    have hnn : nn.length = gcmNonceSize := hns nn (List.mem_cons_self _ _)
    have hnn256 : nn.length < 256 := by
      rw [hnn]
      norm_num [gcmNonceSize]
    have hpbound : p.length + gcmOverhead ≤ maxChunkSizeSanity := by
      have := hshape.2
      simp only [maxChunkSizeSanity, maxChunkSizeD, ChunkSize, gcmOverhead] at *
      omega
    have hds32 : p.length + gcmOverhead < 2 ^ 32 := by
      have hsan : maxChunkSizeSanity < 2 ^ 32 := by
        norm_num [maxChunkSizeSanity, maxChunkSizeD, ChunkSize, gcmOverhead]
      omega
    have hmod : (p.length + gcmOverhead) % 2 ^ 32 = p.length + gcmOverhead :=
      Nat.mod_eq_of_lt hds32
    have hhl : (chunkHeaderBytes ct schemeAES256GCM nn
        ((p.length + gcmOverhead) % 2 ^ 32)).length = 22 :=
      chunkHeaderBytes_length ct schemeAES256GCM nn _ hnn (by rw [hmod]; omega)
    have hsl : (gcmSeal key nn p []).length = p.length + gcmOverhead := gcmSeal_length key nn p []
    have hLlen : L ≤ 22 + (p.length + gcmOverhead) + (chunkStreamN key ns ps).length := by
      rw [chunkStreamN_cons] at hL
      simp only [List.length_append, hhl, hsl] at hL
      omega
    rw [chunkStreamN_cons]
    by_cases hcut : L < 22 + (p.length + gcmOverhead)
    · have h1 : ((chunkHeaderBytes ct schemeAES256GCM nn ((p.length + gcmOverhead) % 2 ^ 32) ++
          gcmSeal key nn p []) ++ chunkStreamN key ns ps).take L =
          (chunkHeaderBytes ct schemeAES256GCM nn ((p.length + gcmOverhead) % 2 ^ 32) ++
            gcmSeal key nn p []).take L :=
        List.take_append_of_le_length (by rw [List.length_append, hhl, hsl]; omega)
      rw [h1, hmod]
      exact decryptLoop_chunk_cut key key ct nn (gcmSeal key nn p [])
        (p.length + gcmOverhead) out extra L hshape.1 hnn
        (by norm_num [gcmOverhead])
        (by norm_num [maxChunkSizeD, ChunkSize, gcmOverhead] at *; omega)
        hsl hcut
    · push_neg at hcut
      have h1 : ((chunkHeaderBytes ct schemeAES256GCM nn ((p.length + gcmOverhead) % 2 ^ 32) ++
          gcmSeal key nn p []) ++ chunkStreamN key ns ps).take L =
          (chunkHeaderBytes ct schemeAES256GCM nn ((p.length + gcmOverhead) % 2 ^ 32) ++
            gcmSeal key nn p []) ++
            (chunkStreamN key ns ps).take (L - (22 + (p.length + gcmOverhead))) := by
        rw [List.take_append_eq_append_take,
          List.take_all_of_le (by rw [List.length_append, hhl, hsl]; omega),
          List.length_append, hhl, hsl]
      rw [h1]
      simp only [List.append_assoc]
      rw [decryptLoop_chunk_step key key ct nn p
        ((chunkStreamN key ns ps).take (L - (22 + (p.length + gcmOverhead)))) out extra
        hshape.1 hnn256 hpbound]
      exact ih ns key (L - (22 + (p.length + gcmOverhead))) _ _ (by simpa using hlen)
        (fun x hx => hns x (List.mem_cons_of_mem _ hx))
        (fun x hx => hps x (List.mem_cons_of_mem _ hx))
        (fun x hx => hpos x (List.mem_cons_of_mem _ hx))
        (by omega)

/-- C4, corrected: truncating a stream `Encrypt` produced at any point up to
the end of its body (anywhere strictly before the terminator chunk) makes
decryption fail — full chunks before the cut decrypt, the cut chunk yields
an end-of-stream, varint, size or framing error, and a stream ending
cleanly after its last data chunk yields the EOF error rather than
success — so truncation before the terminator never yields a clean result,
and EOF is never accepted in place of the terminator; the reported error is
not always a truncation/EOF error, however (see the counterexample: a cut
one byte into a chunk header reports an invalid-chunk-tag framing error). -/
theorem c4_truncation (P key M : List Nat) (rand : Nat → List Nat) (randTomb : List Nat)
    (hM : M.length ≤ ChunkSize) :
    ∃ body tomb : List Nat,
      Encrypt P key M rand randTomb = .ok (body ++ tomb) ∧
      ∀ L, L ≤ body.length → ((Decrypt (body.take L) key).1).isSome = true := by
  obtain ⟨ns, h1, h2, h3⟩ := Encrypt_chunks P key M rand randTomb hM
  refine ⟨chunkStreamN key ns (pieces M P), tombChunkBytes (padTo gcmNonceSize randTomb),
    h3, ?_⟩
  intro L hL
  rw [Decrypt]
  simp only [getGCM, getAES256GCM, if_pos rfl, if_true]
  exact decryptLoop_cut_run (pieces M P) ns key L [] [] h1 h2 (pieces_shape M P hM)
    (pieces_pos M P) hL

/-- witness for the corrected C4 at concrete inputs. -/
theorem c4_truncation_witness :
    ([] : List Nat).length ≤ ChunkSize ∧
    (∃ body tomb : List Nat,
      Encrypt [65] [107] [] (fun _ => []) [] = .ok (body ++ tomb) ∧
      ∀ L, L ≤ body.length → ((Decrypt (body.take L) [107]).1).isSome = true) :=
  ⟨by norm_num [ChunkSize],
    c4_truncation [65] [107] [] (fun _ => []) [] (by norm_num [ChunkSize])⟩

set_option maxRecDepth 1000000 in
/-- counterexample to C4's parenthetical as stated: cutting one byte into a
chunk header of a valid encrypted stream makes decryption fail with the
invalid-chunk-tag framing error, which is neither a truncated-stream nor an
unexpected-end-of-stream error. -/
theorem c4_counterexample :
    ((Encrypt [65] [107] [] (fun _ => []) []).toOption.getD []).take 1 = [99] ∧
    Decrypt [99] [107] = (some CErr.invalidChunkTag, [], []) ∧
    CErr.invalidChunkTag ≠ CErr.eof ∧
    CErr.invalidChunkTag ≠ CErr.unexpectedEof := by
  refine ⟨by decide, by decide, by decide, by decide⟩

end Cryptod
